import Mathlib

/-!
Verification of `filesizeview` (a curses treemap file-size viewer).

This file shallowly embeds the core of `src/filesizeview.py`:
the rounding reconciler `increase_n_highest`, the size-label formatter
`get_size_string`, the treemap layout of `fsvDirectory.calculate_content`,
the hit-testing `get_path`, and the hierarchy builder `create_tree`.

Python floats are modelled by `ℚ` (all arithmetic appearing in the
program — sums, products, divisions by window dimensions and powers of
1024 — is exact in binary floating point on the inputs our concrete
theorems use, and the spec speaks of reals). Python lists are `List`,
with Python's negative-index wrap-around modelled by `pyIdx`; operations
that would raise `IndexError`/`ZeroDivisionError`/`curses.error` return
`none`.
-/

set_option allowUnsafeReducibility true

attribute [semireducible] Rat.mul Rat.add Rat.inv Rat.sub Rat.neg Rat.div Rat.normalize

/-- Python index resolution for a sequence of length `n`: non-negative
indices must be `< n`, negative indices wrap from the end. -/
def pyIdx (n : ℕ) (i : ℤ) : Option ℕ :=
  if 0 ≤ i then (if i < (n : ℤ) then some i.toNat else none)
  else (if -i ≤ (n : ℤ) then some (n - (-i).toNat) else none)

/-- Python `l[i]` with wrap-around; `none` models `IndexError`. -/
def pyGet {α : Type} (l : List α) (i : ℤ) : Option α :=
  (pyIdx l.length i).bind (fun k => l[k]?)

/-- Python `l[i] = a` with wrap-around; `none` models `IndexError`. -/
def pySet {α : Type} (l : List α) (i : ℤ) (a : α) : Option (List α) :=
  (pyIdx l.length i).map (fun k => l.set k a)

/-- Python `num % 1` on a real: the fractional part, in `[0, 1)`. -/
def pyMod1 (q : ℚ) : ℚ := q - ⌊q⌋

/-- The inner `for j, ind in enumerate(indices)` loop of
`increase_n_highest` (src/filesizeview.py:36–40): scan `indices` for the
first slot where `ind == -1 or num > numbers[ind]`; on a hit, insert `i`
there and drop the (global) last element; with no hit return the list
unchanged. `num` is the fractional part of entry `i`, while `numbers[ind]`
is the full stored value — exactly as in the source. -/
def selIns (numbers : List ℚ) (num : ℚ) (i : ℤ) : List ℤ → Option (List ℤ)
  | [] => some []
  | ind :: rest =>
    if ind = -1 then some ((i :: ind :: rest).dropLast)
    else
      match pyGet numbers ind with
      | none => none
      | some v =>
        if v < num then some ((i :: ind :: rest).dropLast)
        else do
          let r ← selIns numbers num i rest
          pure (ind :: r)

/-- `increase_n_highest(numbers, n)` (src/filesizeview.py:32–45).
`n` may be negative (Python `[-1] * n` is then empty). The second loop
writes `math.ceil(numbers[i])` at each selected index (a `-1` sentinel
index wraps to the last element, and raises on an empty list); the final
loop floors every entry. -/
def increase_n_highest (numbers : List ℚ) (n : ℤ) : Option (List ℤ) := do
  let indices ← numbers.enum.foldlM
    (fun ind p => selIns numbers (pyMod1 p.2) (p.1 : ℤ) ind)
    (List.replicate n.toNat (-1 : ℤ))
  let ceiled ← indices.foldlM
    (fun ns i => do
      let v ← pyGet ns i
      pySet ns i ((⌈v⌉ : ℤ) : ℚ)) numbers
  pure (ceiled.map (fun q => ⌊q⌋))

/-- Sum of the floors of a list of rationals. -/
def floorSum (l : List ℚ) : ℤ := (l.map (fun q => ⌊q⌋)).sum

/-- Generic invariant-propagation through an `Option`-valued left fold. -/
theorem foldlM_option_inv {α β : Type} (f : β → α → Option β) (P : β → Prop) :
    ∀ (l : List α) (b out : β), List.foldlM f b l = some out → P b →
    (∀ s a s', a ∈ l → P s → f s a = some s' → P s') → P out := by
  intro l
  induction l with
  | nil => intro b out h hb _; simp [List.foldlM] at h; simpa [← h] using hb
  | cons a t ih =>
    intro b out h hb hstep
    rw [List.foldlM_cons] at h
    rcases Option.bind_eq_some.mp h with ⟨b', hb', hrest⟩
    exact ih b' out hrest (hstep b a b' (List.mem_cons_self a t) hb hb')
      (fun s x s' hx => hstep s x s' (List.mem_cons_of_mem a hx))

theorem pyIdx_of_nonneg {n : ℕ} {i : ℤ} (h0 : 0 ≤ i) (h1 : i < (n : ℤ)) :
    pyIdx n i = some i.toNat := by
  simp [pyIdx, h0, h1]

theorem pyGet_of_nonneg {α : Type} {l : List α} {i : ℤ} (h0 : 0 ≤ i)
    (h1 : i < (l.length : ℤ)) : pyGet l i = l[i.toNat]? := by
  simp [pyGet, pyIdx_of_nonneg h0 h1]

theorem pySet_of_nonneg {α : Type} {l : List α} {i : ℤ} (a : α) (h0 : 0 ≤ i)
    (h1 : i < (l.length : ℤ)) : pySet l i a = some (l.set i.toNat a) := by
  simp [pySet, pyIdx_of_nonneg h0 h1]

theorem pyGet_mem {α : Type} {l : List α} {i : ℤ} {a : α}
    (h : pyGet l i = some a) : a ∈ l := by
  rcases Option.bind_eq_some.mp h with ⟨k, _, hk⟩
  exact List.getElem?_mem hk

theorem pySet_length {α : Type} {l r : List α} {i : ℤ} {a : α}
    (h : pySet l i a = some r) : r.length = l.length := by
  rcases Option.map_eq_some'.mp h with ⟨k, _, hk⟩
  simp [← hk]

/-- Shape of one iteration of the ceiling loop of `increase_n_highest`:
a successful step replaces one entry of `ns` by the (cast) ceiling of its
current value. -/
theorem ceilStep_spec {ns s' : List ℚ} {i : ℤ}
    (h : (do
        let v ← pyGet ns i
        pySet ns i ((⌈v⌉ : ℤ) : ℚ)) = some s') :
    ∃ k v, pyIdx ns.length i = some k ∧ ns[k]? = some v ∧
      s' = ns.set k ((⌈v⌉ : ℤ) : ℚ) := by
  rcases Option.bind_eq_some.mp h with ⟨v, hv, hset⟩
  rcases Option.bind_eq_some.mp hv with ⟨k, hk, hget⟩
  rcases Option.map_eq_some'.mp hset with ⟨k', hk', hset'⟩
  rw [hk] at hk'
  have hkk : k = k' := Option.some_inj.mp hk'
  subst hkk
  exact ⟨k, v, hk, hget, hset'.symm⟩

/-- The selection scan preserves the length of the index list. -/
theorem selIns_length (numbers : List ℚ) (num : ℚ) (i : ℤ) :
    ∀ l r, selIns numbers num i l = some r → r.length = l.length := by
  intro l
  induction l with
  | nil => intro r h; simp [selIns] at h; simp [← h]
  | cons ind rest ih =>
    intro r h
    by_cases h1 : ind = -1
    · simp only [selIns, if_pos h1] at h
      have := Option.some_inj.mp h
      subst this
      simp [List.length_dropLast]
    · simp only [selIns, if_neg h1] at h
      match hg : pyGet numbers ind with
      | none => rw [hg] at h; exact absurd h (by simp)
      | some v =>
        rw [hg] at h
        by_cases h2 : v < num
        · simp only [if_pos h2] at h
          have := Option.some_inj.mp h
          subst this
          simp [List.length_dropLast]
        · simp only [if_neg h2] at h
          rcases Option.bind_eq_some.mp h with ⟨r', hr', hrr⟩
          simp only [pure, Option.some_inj] at hrr
          subst hrr
          simp [ih r' hr']

theorem floorSum_nil : floorSum [] = 0 := rfl

theorem floorSum_cons (x : ℚ) (t : List ℚ) :
    floorSum (x :: t) = ⌊x⌋ + floorSum t := by
  simp [floorSum]

theorem floorSum_set : ∀ (l : List ℚ) (k : ℕ) (a v : ℚ), l[k]? = some v →
    floorSum (l.set k a) = floorSum l - ⌊v⌋ + ⌊a⌋ := by
  intro l
  induction l with
  | nil => intro k a v h; simp at h
  | cons x t ih =>
    intro k a v h
    cases k with
    | zero =>
      simp only [List.getElem?_cons_zero, Option.some_inj] at h
      subst h
      simp [floorSum_cons]
      ring
    | succ k =>
      simp only [List.getElem?_cons_succ] at h
      simp only [List.set_cons_succ, floorSum_cons, ih k a v h]
      ring

/-- Both floor-sum bounds through the ceiling loop: the loop never
decreases the sum of floors, and increases it by at most one per
processed index. -/
theorem ceilFold_floorSum_bounds :
    ∀ (ids : List ℤ) (ns out : List ℚ),
    List.foldlM (fun ns i => do
        let v ← pyGet ns i
        pySet ns i ((⌈v⌉ : ℤ) : ℚ)) ns ids = some out →
    floorSum ns ≤ floorSum out ∧ floorSum out ≤ floorSum ns + ids.length := by
  intro ids
  induction ids with
  | nil =>
    intro ns out h
    have h' : ns = out := Option.some_inj.mp h
    subst h'
    simp
  | cons i t ih =>
    intro ns out h
    rw [List.foldlM_cons] at h
    rcases Option.bind_eq_some.mp h with ⟨ns', hstep, hrest⟩
    rcases ceilStep_spec hstep with ⟨k, v, _, hget, hset⟩
    have hone : floorSum ns' = floorSum ns - ⌊v⌋ + ⌈v⌉ := by
      rw [hset, floorSum_set ns k _ v hget, Int.floor_intCast]
    have hceil_le : ⌈v⌉ ≤ ⌊v⌋ + 1 := Int.ceil_le_floor_add_one v
    have hfloor_le : ⌊v⌋ ≤ ⌈v⌉ := Int.floor_le_ceil v
    rcases ih ns' out hrest with ⟨ih1, ih2⟩
    constructor
    · omega
    · simp only [List.length_cons]
      omega

theorem dropLast_append_replicate_succ (l : List ℤ) (k : ℕ) (x : ℤ) :
    (l ++ List.replicate (k + 1) x).dropLast = l ++ List.replicate k x := by
  rw [List.replicate_succ', ← List.append_assoc, List.dropLast_concat]

/-- Action of one `selIns` scan on an index list in invariant form
`l ++ replicate k (-1)`: the scan always succeeds, keeps the total
length, inserts the fresh index `m` when a sentinel is still present
(consuming one sentinel), and keeps the live prefix duplicate-free. -/
theorem selStep_inv (numbers : List ℚ) (num : ℚ) (m : ℕ)
    (hm : (m : ℤ) ≤ (numbers.length : ℤ)) :
    ∀ (l : List ℤ) (k : ℕ), l.Nodup → (∀ x ∈ l, 0 ≤ x ∧ x < (m : ℤ)) →
    ∃ r l' k', selIns numbers num (m : ℤ) (l ++ List.replicate k (-1)) = some r ∧
      r = l' ++ List.replicate k' (-1) ∧ l'.Nodup ∧
      (∀ x ∈ l', x ∈ l ∨ x = (m : ℤ)) ∧
      l'.length + k' = l.length + k ∧
      (1 ≤ k → k' = k - 1) ∧ (k = 0 → k' = 0) := by
  intro l
  induction l with
  | nil =>
    intro k _ _
    cases k with
    | zero =>
      exact ⟨[], [], 0, by simp [selIns], by simp, List.nodup_nil, by simp, by simp,
        by omega, fun _ => rfl⟩
    | succ k =>
      refine ⟨(m : ℤ) :: List.replicate k (-1), [(m : ℤ)], k, ?_, by simp, ?_, ?_, ?_, ?_, ?_⟩
      · show selIns numbers num (m : ℤ) ([] ++ List.replicate (k + 1) (-1)) = _
        rw [List.nil_append, List.replicate_succ]
        simp only [selIns, if_pos rfl]
        rw [show ((m : ℤ) :: (-1) :: List.replicate k (-1)) =
          [(m : ℤ)] ++ List.replicate (k + 1) (-1) by simp [List.replicate_succ]]
        rw [dropLast_append_replicate_succ]
        simp
      · exact List.nodup_singleton _
      · simp
      · simp; omega
      · intro _; omega
      · intro h; omega
  | cons a t ih =>
    intro k hnd hb
    have ha : 0 ≤ a ∧ a < (m : ℤ) := hb a (List.mem_cons_self a t)
    have hane : ¬(a = -1) := by omega
    have haget : pyGet numbers a = some (numbers.get ⟨a.toNat, by omega⟩) := by
      rw [pyGet_of_nonneg ha.1 (by omega)]
      exact List.getElem?_eq_getElem (by omega)
    have hstep : ∀ rest, selIns numbers num (m : ℤ) (a :: rest) =
        if (numbers.get ⟨a.toNat, by omega⟩) < num
        then some (((m : ℤ) :: a :: rest).dropLast)
        else (selIns numbers num (m : ℤ) rest).bind (fun r => some (a :: r)) := by
      intro rest
      simp only [selIns, if_neg hane, haget]
      by_cases hv : (numbers.get ⟨a.toNat, by omega⟩) < num
      · rw [if_pos hv, if_pos hv]
      · rw [if_neg hv, if_neg hv]
        rfl
    by_cases hv : (numbers.get ⟨a.toNat, by omega⟩) < num
    · -- insert in front of `a`
      cases k with
      | zero =>
        refine ⟨((m : ℤ) :: a :: t).dropLast, ((m : ℤ) :: a :: t).dropLast, 0,
          ?_, by simp, ?_, ?_, ?_, ?_, fun _ => rfl⟩
        · rw [show (a :: t) ++ List.replicate 0 (-1 : ℤ) = a :: t by simp, hstep, if_pos hv]
        · refine (List.dropLast_sublist _).nodup ?_
          refine List.nodup_cons.mpr ⟨?_, hnd⟩
          intro hmem
          rcases hb _ hmem with ⟨_, hlt⟩
          omega
        · intro x hx
          rcases List.mem_cons.mp ((List.dropLast_sublist ((m : ℤ) :: a :: t)).mem hx) with h | h
          · exact Or.inr h
          · exact Or.inl h
        · simp [List.length_dropLast]
        · intro h; omega
      | succ k =>
        refine ⟨(m : ℤ) :: a :: t ++ List.replicate k (-1), (m : ℤ) :: a :: t, k,
          ?_, by simp, ?_, ?_, ?_, ?_, ?_⟩
        · rw [List.cons_append, hstep, if_pos hv]
          rw [show ((m : ℤ) :: a :: (t ++ List.replicate (k + 1) (-1))) =
            ((m : ℤ) :: a :: t) ++ List.replicate (k + 1) (-1) by simp]
          rw [dropLast_append_replicate_succ]
        · refine List.nodup_cons.mpr ⟨?_, hnd⟩
          intro hmem
          rcases hb _ hmem with ⟨_, hlt⟩
          omega
        · intro x hx
          rcases List.mem_cons.mp hx with h | h
          · exact Or.inr h
          · exact Or.inl h
        · simp; omega
        · intro _; omega
        · intro h; omega
    · -- skip `a`, recurse on the tail
      rcases ih k (List.nodup_cons.mp hnd).2
        (fun x hx => hb x (List.mem_cons_of_mem a hx)) with
        ⟨r, l', k', hsel, hform, hnd', hsub, hlen, hk1, hk0⟩
      refine ⟨a :: r, a :: l', k', ?_, by simp [hform], ?_, ?_, ?_, hk1, hk0⟩
      · rw [List.cons_append, hstep, if_neg hv, hsel]
        rfl
      · refine List.nodup_cons.mpr ⟨?_, hnd'⟩
        intro hmem
        rcases hsub a hmem with h | h
        · exact (List.nodup_cons.mp hnd).1 h
        · omega
      · intro x hx
        rcases List.mem_cons.mp hx with h | h
        · exact Or.inl (h ▸ List.mem_cons_self a t)
        · rcases hsub x h with h' | h'
          · exact Or.inl (List.mem_cons_of_mem a h')
          · exact Or.inr h'
      · simp at hlen ⊢; omega

/-- The whole selection phase of `increase_n_highest`, in invariant form:
starting from `l ++ replicate k (-1)` and scanning the entries of `todo`
(enumerated from index `m`), the fold succeeds and yields a
duplicate-free prefix of valid indices followed by the remaining
sentinels, one sentinel being consumed per scanned entry. -/
theorem selPhase_inv (numbers : List ℚ) :
    ∀ (todo : List ℚ) (m : ℕ) (l : List ℤ) (k : ℕ),
    m + todo.length ≤ numbers.length →
    l.Nodup → (∀ x ∈ l, 0 ≤ x ∧ x < (m : ℤ)) →
    ∃ out l' k',
      List.foldlM (fun ind p => selIns numbers (pyMod1 p.2) (p.1 : ℤ) ind)
        (l ++ List.replicate k (-1)) (List.enumFrom m todo) = some out ∧
      out = l' ++ List.replicate k' (-1) ∧ l'.Nodup ∧
      (∀ x ∈ l', 0 ≤ x ∧ x < ((m + todo.length : ℕ) : ℤ)) ∧
      l'.length + k' = l.length + k ∧ k' = k - min todo.length k := by
  intro todo
  induction todo with
  | nil =>
    intro m l k _ hnd hb
    exact ⟨l ++ List.replicate k (-1), l, k, by simp [List.enumFrom], rfl, hnd,
      by simpa using hb, rfl, by simp⟩
  | cons x xs ih =>
    intro m l k hlen hnd hb
    have hm : (m : ℤ) ≤ (numbers.length : ℤ) := by
      simp only [List.length_cons] at hlen; exact_mod_cast by omega
    rcases selStep_inv numbers (pyMod1 x) m hm l k hnd hb with
      ⟨r, l'', k'', hsel, hform, hnd'', hsub'', hlen'', hk1'', hk0''⟩
    have hb'' : ∀ y ∈ l'', 0 ≤ y ∧ y < ((m + 1 : ℕ) : ℤ) := by
      intro y hy
      rcases hsub'' y hy with h | h
      · rcases hb y h with ⟨h1, h2⟩
        constructor
        · exact h1
        · push_cast; omega
      · subst h
        constructor
        · exact_mod_cast Nat.zero_le m
        · push_cast; omega
    have hlen' : (m + 1) + xs.length ≤ numbers.length := by
      simp only [List.length_cons] at hlen; omega
    rcases ih (m + 1) l'' k'' hlen' hnd'' hb'' with
      ⟨out, l', k', hfold, hform', hnd', hb', hlen2, hkeq⟩
    refine ⟨out, l', k', ?_, hform', hnd', ?_, ?_, ?_⟩
    · rw [List.enumFrom_cons, List.foldlM_cons, hsel, hform]
      exact hfold
    · intro y hy
      rcases hb' y hy with ⟨h1, h2⟩
      refine ⟨h1, ?_⟩
      simp only [List.length_cons]
      push_cast at h2 ⊢
      omega
    · omega
    · simp only [List.length_cons]
      omega

/-- Sum of the ceilings of a list of rationals. -/
def ceilSum (l : List ℚ) : ℤ := (l.map (fun q => ⌈q⌉)).sum

theorem ceilSum_of_frac :
    ∀ l : List ℚ, (∀ q ∈ l, q ≠ ((⌊q⌋ : ℤ) : ℚ)) →
    ceilSum l = floorSum l + l.length := by
  intro l
  induction l with
  | nil => intro _; simp [ceilSum, floorSum]
  | cons x t ih =>
    intro hfrac
    have hx : x ≠ ((⌊x⌋ : ℤ) : ℚ) := hfrac x (List.mem_cons_self x t)
    have hflt : ((⌊x⌋ : ℤ) : ℚ) < x := lt_of_le_of_ne (Int.floor_le x) (Ne.symm hx)
    have hceil : ⌈x⌉ = ⌊x⌋ + 1 := by
      have h1 : ⌈x⌉ ≤ ⌊x⌋ + 1 := Int.ceil_le_floor_add_one x
      have h2 : ⌊x⌋ < ⌈x⌉ := by
        have := Int.le_ceil x
        exact_mod_cast lt_of_lt_of_le hflt this
      omega
    have ht := ih (fun q hq => hfrac q (List.mem_cons_of_mem x hq))
    simp only [ceilSum, floorSum, List.map_cons, List.sum_cons] at *
    rw [hceil]
    push_cast [List.length_cons]
    omega

/-- The ceiling loop run over duplicate-free valid indices at positions
whose entries are untouched and non-integral: it succeeds and increases
the floor sum by exactly one per index. -/
theorem ceilFold_exact (numbers : List ℚ)
    (hfrac : ∀ q ∈ numbers, q ≠ ((⌊q⌋ : ℤ) : ℚ)) :
    ∀ (ids : List ℤ) (ns : List ℚ),
    ns.length = numbers.length →
    ids.Nodup → (∀ i ∈ ids, 0 ≤ i ∧ i < (numbers.length : ℤ)) →
    (∀ i ∈ ids, ns[i.toNat]? = numbers[i.toNat]?) →
    ∃ out, List.foldlM (fun ns i => do
        let v ← pyGet ns i
        pySet ns i ((⌈v⌉ : ℤ) : ℚ)) ns ids = some out ∧
      floorSum out = floorSum ns + ids.length := by
  intro ids
  induction ids with
  | nil =>
    intro ns _ _ _ _
    exact ⟨ns, by simp [List.foldlM], by simp⟩
  | cons i t ihx =>
    intro ns hlen hnd hb huntouched
    have hi := hb i (List.mem_cons_self i t)
    have hilt : i.toNat < numbers.length := by omega
    have hilt' : i.toNat < ns.length := by omega
    have hv : ns[i.toNat]? = some numbers[i.toNat] := by
      rw [huntouched i (List.mem_cons_self i t)]
      exact List.getElem?_eq_getElem hilt
    set v := numbers[i.toNat] with hvdef
    have hvmem : v ∈ numbers := List.getElem_mem hilt
    have hvfrac : v ≠ ((⌊v⌋ : ℤ) : ℚ) := hfrac v hvmem
    have hflt : ((⌊v⌋ : ℤ) : ℚ) < v := lt_of_le_of_ne (Int.floor_le v) (Ne.symm hvfrac)
    have hceil : ⌈v⌉ = ⌊v⌋ + 1 := by
      have h1 : ⌈v⌉ ≤ ⌊v⌋ + 1 := Int.ceil_le_floor_add_one v
      have h2 : ⌊v⌋ < ⌈v⌉ := by
        have := Int.le_ceil v
        exact_mod_cast lt_of_lt_of_le hflt this
      omega
    have hget : pyGet ns i = some v := by
      rw [pyGet_of_nonneg hi.1 (by omega)]
      exact hv
    have hset : pySet ns i ((⌈v⌉ : ℤ) : ℚ) = some (ns.set i.toNat ((⌈v⌉ : ℤ) : ℚ)) :=
      pySet_of_nonneg _ hi.1 (by omega)
    set ns' := ns.set i.toNat ((⌈v⌉ : ℤ) : ℚ) with hns'
    have hlen' : ns'.length = numbers.length := by simp [hns', hlen]
    have huntouched' : ∀ j ∈ t, ns'[j.toNat]? = numbers[j.toNat]? := by
      intro j hj
      have hij : i ≠ j := by
        intro h
        exact (List.nodup_cons.mp hnd).1 (h ▸ hj)
      have hjb := hb j (List.mem_cons_of_mem i hj)
      have : i.toNat ≠ j.toNat := by omega
      rw [hns', List.getElem?_set_ne this]
      exact huntouched j (List.mem_cons_of_mem i hj)
    rcases ihx ns' hlen' (List.nodup_cons.mp hnd).2
      (fun j hj => hb j (List.mem_cons_of_mem i hj)) huntouched' with
      ⟨out, hfold, hsum⟩
    refine ⟨out, ?_, ?_⟩
    · rw [List.foldlM_cons]
      refine Option.bind_eq_some.mpr ⟨ns', ?_, hfold⟩
      show (pyGet ns i).bind (fun v => pySet ns i ((⌈v⌉ : ℤ) : ℚ)) = some ns'
      rw [hget]
      simpa using hset
    · have hfs : floorSum ns' = floorSum ns - ⌊v⌋ + ⌈v⌉ := by
        rw [hns', floorSum_set ns i.toNat _ v hv, Int.floor_intCast]
      rw [hsum, hfs, hceil]
      simp only [List.length_cons]
      push_cast
      omega

/-- Membership (claim `ys[i] ∈ {⌊xs[i]⌋, ⌈xs[i]⌉}`) and length preservation:
whatever `increase_n_highest` returns, every entry is the floor or the
ceiling of the corresponding input entry. -/
theorem increase_n_highest_mem {numbers : List ℚ} {n : ℤ} {res : List ℤ}
    (h : increase_n_highest numbers n = some res) :
    res.length = numbers.length ∧
    ∀ k : ℕ,
      res[k]? = (numbers[k]?).map (fun q : ℚ => ⌊q⌋) ∨
      res[k]? = (numbers[k]?).map (fun q : ℚ => ⌈q⌉) := by
  unfold increase_n_highest at h
  rcases Option.bind_eq_some.mp h with ⟨indices, _, h2⟩
  rcases Option.bind_eq_some.mp h2 with ⟨ceiled, hceil, h3⟩
  have h3 : ceiled.map (fun q => ⌊q⌋) = res := Option.some_inj.mp h3
  have hPfinal :
      ceiled.length = numbers.length ∧
      ∀ k : ℕ, ceiled[k]? = numbers[k]? ∨
        ∃ q, numbers[k]? = some q ∧ ceiled[k]? = some ((⌈q⌉ : ℤ) : ℚ) := by
    refine foldlM_option_inv _
      (fun ns => ns.length = numbers.length ∧
        ∀ k : ℕ, ns[k]? = numbers[k]? ∨
          ∃ q, numbers[k]? = some q ∧ ns[k]? = some ((⌈q⌉ : ℤ) : ℚ))
      indices numbers ceiled hceil ⟨rfl, fun k => Or.inl rfl⟩ ?_
    intro s a s' _ hs hstep
    rcases ceilStep_spec hstep with ⟨kk, v, _, hget, hset⟩
    rcases hs with ⟨hlen, hmem⟩
    have hklt : kk < s.length := (List.getElem?_eq_some.mp hget).1
    refine ⟨by simp [hset, hlen], ?_⟩
    intro k
    by_cases hk : kk = k
    · subst hk
      right
      have hset2 : s'[kk]? = some ((⌈v⌉ : ℤ) : ℚ) := by
        rw [hset]; exact List.getElem?_set_self hklt
      rcases hmem kk with hc | ⟨q, hq, hcq⟩
      · exact ⟨v, by rw [← hc, hget], hset2⟩
      · refine ⟨q, hq, ?_⟩
        rw [hget] at hcq
        have hv : v = ((⌈q⌉ : ℤ) : ℚ) := Option.some_inj.mp hcq
        rw [hset2, hv, Int.ceil_intCast]
    · rcases hmem k with hc | ⟨q, hq, hcq⟩
      · exact Or.inl (by rw [hset, List.getElem?_set_ne hk, hc])
      · exact Or.inr ⟨q, hq, by rw [hset, List.getElem?_set_ne hk, hcq]⟩
  rcases hPfinal with ⟨hlen, hmem⟩
  subst h3
  refine ⟨by simp [hlen], ?_⟩
  intro k
  rcases hmem k with hc | ⟨q, hq, hcq⟩
  · left
    rw [List.getElem?_map, hc]
  · right
    rw [List.getElem?_map, hcq, hq]
    simp [Int.floor_intCast]

/-- Claim C1 (amended): on a sequence `xs` of non-negative reals none of
which is an integer, and a target `T` with `Σ⌊xs⌋ ≤ T ≤ Σ⌈xs⌉`, the
reconciler call `increase_n_highest xs (T − Σ⌊xs⌋)` succeeds with a
result `ys` such that `Σ ys = T` and every `ys[i]` is `⌊xs[i]⌋` or
`⌈xs[i]⌉`. (The original claim, which demands this for every
`T ≥ Σ⌊xs⌋` and arbitrary non-negative reals, is refuted by
`increase_n_highest_not_exact_on_integral_entries`.) -/
theorem increase_n_highest_reconciles (xs : List ℚ) (T : ℤ)
    (hpos : ∀ q ∈ xs, 0 ≤ q)
    (hfrac : ∀ q ∈ xs, q ≠ ((⌊q⌋ : ℤ) : ℚ))
    (hlo : floorSum xs ≤ T) (hhi : T ≤ ceilSum xs) :
    ∃ ys, increase_n_highest xs (T - floorSum xs) = some ys ∧
      ys.sum = T ∧ ∀ k : ℕ,
        ys[k]? = (xs[k]?).map (fun q : ℚ => ⌊q⌋) ∨
        ys[k]? = (xs[k]?).map (fun q : ℚ => ⌈q⌉) := by
  have hn0 : 0 ≤ T - floorSum xs := by omega
  have hnlen : T - floorSum xs ≤ (xs.length : ℤ) := by
    have := ceilSum_of_frac xs hfrac
    omega
  have htoNat : ((T - floorSum xs).toNat : ℤ) = T - floorSum xs :=
    Int.toNat_of_nonneg hn0
  rcases selPhase_inv xs xs 0 [] (T - floorSum xs).toNat (by simp)
    List.nodup_nil (by simp) with
    ⟨inds, l', k', hfold1, hform, hnd', hb', hlen', hk'⟩
  have hlen_xs : (T - floorSum xs).toNat ≤ xs.length := by omega
  have hk'0 : k' = 0 := by
    rw [hk', min_eq_right hlen_xs]
    omega
  have hform' : inds = l' := by
    rw [hform, hk'0]
    simp
  have hl'len : l'.length = (T - floorSum xs).toNat := by
    have := hlen'
    simp at this
    omega
  have hb'' : ∀ i ∈ l', 0 ≤ i ∧ i < (xs.length : ℤ) := by
    intro i hi
    have := hb' i hi
    simpa using this
  rcases ceilFold_exact xs hfrac l' xs rfl hnd' hb'' (fun i _ => rfl) with
    ⟨ceiled, hfold2, hsum⟩
  have h1 : List.foldlM (fun ind p => selIns xs (pyMod1 p.2) (p.1 : ℤ) ind)
      (List.replicate (T - floorSum xs).toNat (-1 : ℤ)) xs.enum = some l' := by
    show List.foldlM (fun ind p => selIns xs (pyMod1 p.2) (p.1 : ℤ) ind)
      (List.replicate (T - floorSum xs).toNat (-1 : ℤ))
      (List.enumFrom 0 xs) = some l'
    rw [← hform']
    simpa using hfold1
  refine ⟨ceiled.map (fun q => ⌊q⌋), ?_, ?_, ?_⟩
  · unfold increase_n_highest
    rw [show (List.foldlM (fun ind p => selIns xs (pyMod1 p.2) (p.1 : ℤ) ind)
      (List.replicate (T - floorSum xs).toNat (-1 : ℤ)) xs.enum : Option (List ℤ))
      = some l' from h1]
    refine Option.bind_eq_some.mpr ⟨l', rfl, ?_⟩
    rw [hfold2]
    rfl
  · show floorSum ceiled = T
    rw [hsum, hl'len]
    omega
  · have hmem := @increase_n_highest_mem xs (T - floorSum xs)
      (ceiled.map (fun q => ⌊q⌋))
    refine (hmem ?_).2
    unfold increase_n_highest
    rw [show (List.foldlM (fun ind p => selIns xs (pyMod1 p.2) (p.1 : ℤ) ind)
      (List.replicate (T - floorSum xs).toNat (-1 : ℤ)) xs.enum : Option (List ℤ))
      = some l' from h1]
    refine Option.bind_eq_some.mpr ⟨l', rfl, ?_⟩
    rw [hfold2]
    rfl

/-- Witness for `increase_n_highest_reconciles` at `xs = [3/2, 1/2]`,
`T = 3`: both entries are rounded up and the result sums to `3`. -/
theorem increase_n_highest_reconciles_witness :
    ∃ ys, increase_n_highest [(3/2 : ℚ), 1/2] (3 - floorSum [(3/2 : ℚ), 1/2]) = some ys ∧
      ys.sum = 3 ∧ ∀ k : ℕ,
        ys[k]? = (([(3/2 : ℚ), 1/2])[k]?).map (fun q : ℚ => ⌊q⌋) ∨
        ys[k]? = (([(3/2 : ℚ), 1/2])[k]?).map (fun q : ℚ => ⌈q⌉) :=
  increase_n_highest_reconciles [(3/2 : ℚ), 1/2] 3
    (by decide) (by decide) (by decide) (by decide)

/-- Claim C1 is false as stated: for `xs = [2, 1/2]` and `T = 3` (which
satisfies `T ≥ Σ⌊xs⌋ = 2`), the sentinel scan selects the integral entry
`2` (its full value beats the fractional part `1/2` in the comparison),
so the result `[2, 0]` sums to `2`, not `T = 3`. -/
theorem increase_n_highest_not_exact_on_integral_entries :
    floorSum [(2 : ℚ), 1/2] ≤ 3 ∧
    increase_n_highest [(2 : ℚ), 1/2] (3 - floorSum [(2 : ℚ), 1/2]) = some [2, 0] ∧
    (2 : ℤ) + 0 ≠ 3 := by
  refine ⟨by decide, by decide, by decide⟩

/-- Claim C2: the code does not round up the `n` entries with the largest
fractional remainder. With `xs = [3/2, 9/10]` and `n = 1`, the entry with
the largest remainder is `9/10` (remainder `9/10 > 1/2`), yet the code
rounds up `3/2` and floors `9/10` to `0`: the inner comparison
`num > numbers[ind]` compares a fractional part against a full stored
value instead of its remainder. -/
theorem increase_n_highest_not_largest_remainder :
    increase_n_highest [(3/2 : ℚ), 9/10] 1 = some [2, 0] ∧
    pyMod1 (3/2) < pyMod1 (9/10) := by
  refine ⟨by decide, by decide⟩

/-- The `while s > 1024: s /= 1024; c += 1` loop of `get_size_string`
(src/filesizeview.py:102–104), with an explicit fuel bound (the Python
loop terminates on every positive float; `get_size_string` below passes
enough fuel for its argument). On the sizes our theorems speak about,
`float(size)` is exact and float division by `1024` only decrements the
exponent, so the `ℚ` model agrees with the float loop. -/
def sizeLoop : ℕ → ℚ → ℕ → Option (ℚ × ℕ)
  | 0, _, _ => none
  | fuel + 1, s, c => if 1024 < s then sizeLoop fuel (s / 1024) (c + 1) else some (s, c)

/-- `units = "BKMGT"` (src/filesizeview.py:100). -/
def sizeUnits : List Char := ['B', 'K', 'M', 'G', 'T']

/-- `fsvFile.get_size_string` (src/filesizeview.py:98–107), modelled up
to decimal formatting: the returned string is the value `s` after the
division loop (printed with one or zero decimals) suffixed by
`units[c]`; we return the pair `(s, units[c])`, and `none` when
`units[c]` raises `IndexError`. -/
def get_size_string (size : ℕ) : Option (ℚ × Char) := do
  let (s, c) ← sizeLoop (size + 1) (size : ℚ) 0
  let u ← sizeUnits[c]?
  pure (s, u)

/-- Enough fuel makes the division loop finish. -/
theorem sizeLoop_isSome :
    ∀ (fuel : ℕ) (s : ℚ) (c : ℕ), s ≤ 1024 ^ fuel * 1024 →
    ∃ out, sizeLoop (fuel + 1) s c = some out := by
  intro fuel
  induction fuel with
  | zero =>
    intro s c hs
    refine ⟨(s, c), ?_⟩
    simp only [pow_zero, one_mul] at hs
    simp [sizeLoop, not_lt_of_le hs]
  | succ f ih =>
    intro s c hs
    by_cases h : 1024 < s
    · have hdiv : s / 1024 ≤ 1024 ^ f * 1024 := by
        rw [div_le_iff (by norm_num : (0:ℚ) < 1024)]
        calc s ≤ 1024 ^ (f + 1) * 1024 := hs
        _ = 1024 ^ f * 1024 * 1024 := by ring
      rcases ih (s / 1024) (c + 1) hdiv with ⟨out, hout⟩
      exact ⟨out, by simp only [sizeLoop, if_pos h]; exact hout⟩
    · exact ⟨(s, c), by simp [sizeLoop, h]⟩

/-- The division count is bounded by the 1024-logarithm of the start
value: from `s ≤ 1024 ^ (j + 1)` the loop exits with counter at most
`c + j`. -/
theorem sizeLoop_count_le :
    ∀ (fuel : ℕ) (s : ℚ) (c : ℕ) (out : ℚ × ℕ), sizeLoop fuel s c = some out →
    ∀ j : ℕ, s ≤ 1024 ^ (j + 1) → out.2 ≤ c + j := by
  intro fuel
  induction fuel with
  | zero => intro s c out h; simp [sizeLoop] at h
  | succ f ih =>
    intro s c out h j hj
    by_cases hs : 1024 < s
    · rw [sizeLoop, if_pos hs] at h
      cases j with
      | zero =>
        exfalso
        simp only [zero_add, pow_one] at hj
        exact absurd hj (not_le_of_lt hs)
      | succ j =>
        have hdiv : s / 1024 ≤ 1024 ^ (j + 1) := by
          rw [div_le_iff (by norm_num : (0:ℚ) < 1024)]
          calc s ≤ 1024 ^ (j + 1 + 1) := hj
          _ = 1024 ^ (j + 1) * 1024 := by ring
        have := ih (s / 1024) (c + 1) out h j hdiv
        omega
    · rw [sizeLoop, if_neg hs] at h
      have hout2 : (s, c) = out := Option.some_inj.mp h
      rw [← hout2]
      omega

/-- Claim C10 (amended): for every size up to `1024^5` (= `2^50`), the
label formatter succeeds and uses one of the five units `BKMGT`; for
larger sizes the unit index overflows the table (see
`get_size_string_overflow`). -/
theorem get_size_string_unit_in_table (size : ℕ) (h : size ≤ 1024 ^ 5) :
    ∃ s u, get_size_string size = some (s, u) ∧ u ∈ sizeUnits := by
  have hfuel : (size : ℚ) ≤ 1024 ^ size * 1024 := by
    calc (size : ℚ) ≤ 2 ^ size := by
          exact_mod_cast le_of_lt (Nat.lt_two_pow size)
    _ ≤ 1024 ^ size := by
          apply pow_le_pow_left (by norm_num) (by norm_num)
    _ ≤ 1024 ^ size * 1024 := by
          nlinarith [pow_pos (show (0:ℚ) < 1024 by norm_num) size]
  rcases sizeLoop_isSome size (size : ℚ) 0 hfuel with ⟨⟨s, c⟩, hout⟩
  have hc : c ≤ 4 := by
    have hcast : (size : ℚ) ≤ 1024 ^ (4 + 1) := by
      have : ((1024 ^ 5 : ℕ) : ℚ) = 1024 ^ (4 + 1) := by push_cast; ring
      rw [← this]
      exact_mod_cast h
    have := sizeLoop_count_le (size + 1) (size : ℚ) 0 (s, c) hout 4 hcast
    omega
  have hlt : c < sizeUnits.length := by simp [sizeUnits]; omega
  have hu : sizeUnits[c]? = some sizeUnits[c] := List.getElem?_eq_getElem hlt
  refine ⟨s, sizeUnits[c], ?_, ?_⟩
  · unfold get_size_string
    rw [hout]
    show (sizeUnits[c]?).bind _ = _
    rw [hu]
    rfl
  · exact List.getElem_mem _

/-- Witness for `get_size_string_unit_in_table`: `2048` bytes format as
`(2, 'K')`. -/
theorem get_size_string_unit_in_table_witness :
    ∃ s u, get_size_string 2048 = some (s, u) ∧ u ∈ sizeUnits :=
  get_size_string_unit_in_table 2048 (by norm_num)

/-- Claim C10 is false as stated: at `size = 2^50 + 1` the loop divides
five times (the value stays above `1024` through the fifth test), the
unit index reaches `5`, and `units[5]` raises `IndexError` — modelled
here as `none`. All float operations involved are exact, so the float
program fails identically. -/
theorem get_size_string_overflow : get_size_string (2 ^ 50 + 1) = none := by decide

/-- A curses window rectangle: `nlines × ncols` cells at position
`(begy, begx)`. `getmaxyx` returns `(nlines, ncols)`, `getbegyx` returns
`(begy, begx)`. For a `derwin` result the position is relative to the
parent window; the tree model below stores absolute positions. -/
structure Geom where
  nlines : ℤ
  ncols : ℤ
  begy : ℤ
  begx : ℤ
deriving DecidableEq, Repr

/-- Python booleans multiply as `0`/`1` (e.g. `frame_size[1] * draw_frame`). -/
def b2i (b : Bool) : ℤ := if b then 1 else 0

/-- `fsvDirectory.frame_size = (1, 1)` (src/filesizeview.py:116);
`fsvParentDirectory.frame_size = (1, 0)` (src/filesizeview.py:240). -/
def frame_size (isRoot : Bool) : ℤ × ℤ := if isRoot then (1, 0) else (1, 1)

/-- `w_height = getmaxyx()[0] - frame_size[0]*draw_frame`
(src/filesizeview.py:144). -/
def interior_height (maxy : ℤ) (isRoot draw_frame : Bool) : ℤ :=
  maxy - (frame_size isRoot).1 * b2i draw_frame

/-- `w_width = getmaxyx()[1] - frame_size[1]*draw_frame`
(src/filesizeview.py:143). -/
def interior_width (maxx : ℤ) (isRoot draw_frame : Bool) : ℤ :=
  maxx - (frame_size isRoot).2 * b2i draw_frame

/-- The strip-grouping loop of `fsvDirectory.calculate_content`
(src/filesizeview.py:148–167), one recursion step per
`for i, f in enumerate(self._files)` iteration, returning the parallel
`indices`/`exact_heights` lists as a list of
`((start, end), exact_height)` pairs (the source appends to both lists
together). -/
def groupGo (size_fac : ℚ) (w_width : ℤ) :
    List ℤ → ℕ → ℕ × ℕ → ℚ → ℚ → List ((ℕ × ℕ) × ℚ) → List ((ℕ × ℕ) × ℚ)
  | [], _, cur, _, size_sum, acc => acc ++ [(cur, size_sum / (w_width : ℚ))]
  | sz :: rest, i, cur, difference, size_sum, acc =>
    let new_size_sum := size_sum + size_fac * (sz : ℚ)
    let new_difference :=
      |new_size_sum / (w_width : ℚ) - (w_width : ℚ) / ((i : ℚ) + 1 - (cur.1 : ℚ))|
    if difference < new_difference then
      groupGo size_fac w_width rest (i + 1) (i, i + 1)
        |size_fac * (sz : ℚ) / (w_width : ℚ) - (w_width : ℚ)|
        (size_fac * (sz : ℚ))
        (acc ++ [(cur, size_sum / (w_width : ℚ))])
    else
      groupGo size_fac w_width rest (i + 1) (cur.1, i + 1) new_difference new_size_sum acc

/-- The `widths`/`sum_width` computation for one strip
(src/filesizeview.py:176–181): for each member `j` of the strip,
`w = files[j].size() * size_fac / exact_heights[i]`. A missing index is
an `IndexError` and a zero `exact_heights[i]` a float
`ZeroDivisionError`, both `none`. -/
def widthsOf (sizes : List ℤ) (size_fac : ℚ) (ex : ℚ) (start end_ : ℕ) :
    Option (List ℚ) :=
  (List.range' start (end_ - start)).mapM (fun j => do
    let sz : ℤ ← sizes[j]?
    if ex = 0 then none else pure ((sz : ℚ) * size_fac / ex))

/-- The inner member loop of one strip (src/filesizeview.py:184–198):
walk the member indices with their reconciled integer widths, skip
zero-width members, and give each drawn member the `derwin` rectangle
`(heights[i], widths[j-start], sum_height, sum_width)`, advancing
`sum_width`. `derwin` fails (curses error) unless the rectangle has
positive extent and lies inside the parent window. Returns the final
`sum_width` and the updated per-child geometry assignment. -/
def placeMembers (maxy maxx h sum_height : ℤ) :
    List ℕ → List ℤ → ℤ → List (Option Geom) → Option (ℤ × List (Option Geom))
  | [], _, sum_width, asg => some (sum_width, asg)
  | _ :: _, [], _, _ => none
  | j :: js, w :: ws, sum_width, asg =>
    if w = 0 then placeMembers maxy maxx h sum_height js ws sum_width asg
    else
      if 1 ≤ h ∧ 1 ≤ w ∧ 0 ≤ sum_height ∧ 0 ≤ sum_width ∧
          sum_height + h ≤ maxy ∧ sum_width + w ≤ maxx then
        if hj : j < asg.length then
          placeMembers maxy maxx h sum_height js ws (sum_width + w)
            (asg.set j (some ⟨h, w, sum_height, sum_width⟩))
        else none
      else none

/-- The strip loop of `fsvDirectory.calculate_content`
(src/filesizeview.py:172–199): walk the strips with their reconciled
integer heights, skip zero-height strips, reconcile the member widths of
each drawn strip against `w_width`, place its members, and advance
`sum_height`. -/
def placeStrips (sizes : List ℤ) (size_fac : ℚ) (w_width maxy maxx fw : ℤ) :
    List ((ℕ × ℕ) × ℚ) → List ℤ → ℤ → List (Option Geom) →
    Option (List (Option Geom))
  | [], _, _, asg => some asg
  | _ :: _, [], _, _ => none
  | (se, ex) :: strips, h :: hs, sum_height, asg =>
    if h = 0 then placeStrips sizes size_fac w_width maxy maxx fw strips hs sum_height asg
    else do
      let wexact ← widthsOf sizes size_fac ex se.1 se.2
      let widths ← increase_n_highest wexact (w_width - floorSum wexact)
      let out ← placeMembers maxy maxx h sum_height
        (List.range' se.1 (se.2 - se.1)) widths fw asg
      placeStrips sizes size_fac w_width maxy maxx fw strips hs (sum_height + h) out.2

/-- `size_fac = float(w_width * w_height) / self._size`
(src/filesizeview.py:147). -/
def size_fac_of (size maxy maxx : ℤ) (isRoot draw_frame : Bool) : ℚ :=
  ((interior_width maxx isRoot draw_frame * interior_height maxy isRoot draw_frame : ℤ) : ℚ)
    / (size : ℚ)

/-- The strips produced by the grouping loop for one directory layout. -/
def stripsOf (sizes : List ℤ) (size maxy maxx : ℤ) (isRoot draw_frame : Bool) :
    List ((ℕ × ℕ) × ℚ) :=
  groupGo (size_fac_of size maxy maxx isRoot draw_frame)
    (interior_width maxx isRoot draw_frame) sizes 0 (0, 1) 1000 0 []

/-- The geometry assignment computed by one call of
`fsvDirectory.calculate_content` (src/filesizeview.py:136–200) on a
directory with child sizes `sizes`, total size `size` and a window of
`maxy × maxx` cells: for every child, its `derwin` rectangle (relative
to the directory's window), or `none` when the child is not drawn.
`num = w_height - sum(floor(x) for x in exact_heights)` feeds the
reconciler over the strip heights. Text/color drawing is omitted; the
recursion into child directories is `fsvNode.calculate_content` below. -/
def layoutGeoms (sizes : List ℤ) (size : ℤ) (maxy maxx : ℤ) (isRoot : Bool)
    (draw_frame : Bool) : Option (List (Option Geom)) :=
  if size = 0 then some (List.replicate sizes.length none)
  else
    if interior_width maxx isRoot draw_frame = 0 ∨
        interior_height maxy isRoot draw_frame = 0 then
      some (List.replicate sizes.length none)
    else do
      let heights ← increase_n_highest
        ((stripsOf sizes size maxy maxx isRoot draw_frame).map (fun p => p.2))
        (interior_height maxy isRoot draw_frame -
          floorSum ((stripsOf sizes size maxy maxx isRoot draw_frame).map (fun p => p.2)))
      placeStrips sizes (size_fac_of size maxy maxx isRoot draw_frame)
        (interior_width maxx isRoot draw_frame) maxy maxx
        ((frame_size isRoot).2 * b2i draw_frame)
        (stripsOf sizes size maxy maxx isRoot draw_frame) heights
        ((frame_size isRoot).1 * b2i draw_frame)
        (List.replicate sizes.length none)

/-- The grid cells covered by a window rectangle. -/
def cells (g : Geom) : Finset (ℤ × ℤ) :=
  Finset.Ico g.begy (g.begy + g.nlines) ×ˢ Finset.Ico g.begx (g.begx + g.ncols)

/-- The interior cells of a `maxy × maxx` window whose top `fh` rows and
left `fw` columns are frame cells. -/
def interiorCells (maxy maxx fh fw : ℤ) : Finset (ℤ × ℤ) :=
  Finset.Ico fh maxy ×ˢ Finset.Ico fw maxx

/-- Claim C9: with frames drawn, the interior budget of an ordinary
directory is the viewport minus one row and one column, and of the root
the viewport minus one row only (no left column reserved); and whenever
the directory size is `0` or an interior dimension is `0`, the layout
call assigns no geometry to any child and does not fail. -/
theorem layoutGeoms_interior_budget_and_degenerate
    (sizes : List ℤ) (size maxy maxx : ℤ) (isRoot : Bool) :
    interior_height maxy false true = maxy - 1 ∧
    interior_width maxx false true = maxx - 1 ∧
    interior_height maxy true true = maxy - 1 ∧
    interior_width maxx true true = maxx ∧
    ∀ draw_frame : Bool,
      size = 0 ∨ interior_width maxx isRoot draw_frame = 0 ∨
        interior_height maxy isRoot draw_frame = 0 →
      layoutGeoms sizes size maxy maxx isRoot draw_frame =
        some (List.replicate sizes.length none) := by
  refine ⟨by simp [interior_height, frame_size, b2i], by simp [interior_width, frame_size, b2i],
    by simp [interior_height, frame_size, b2i], by simp [interior_width, frame_size, b2i], ?_⟩
  intro draw_frame hcase
  by_cases hs : size = 0
  · simp [layoutGeoms, hs]
  · have hdim : interior_width maxx isRoot draw_frame = 0 ∨
        interior_height maxy isRoot draw_frame = 0 := by
      rcases hcase with h | h
      · exact absurd h hs
      · exact h
    rw [layoutGeoms, if_neg hs, if_pos hdim]

/-- Witness for `layoutGeoms_interior_budget_and_degenerate`: a
directory of size `0` with one child gets no child geometry. -/
theorem layoutGeoms_degenerate_witness :
    layoutGeoms [0] 0 5 5 false true = some (List.replicate 1 none) :=
  (layoutGeoms_interior_budget_and_degenerate [0] 0 5 5 false).2.2.2.2
    true (Or.inl rfl)

/-- Claim C3's shortfall clause is false: for a directory of size `10`
with children sized `4, 3, 3` in a frameless `5 × 2` window (interior
`= 10` cells), all three children are drawn (none is discarded for zero
width or height), yet their rectangles cover only `8` cells. The missing
row exists because the reconciler selects the integral strip height
`2.0` instead of a fractional `1.5` (claim C2's defect), so the strip
heights `[2, 1, 1]` sum to `4 < 5`. -/
theorem layoutGeoms_shortfall_without_discards :
    layoutGeoms [4, 3, 3] 10 5 2 false false =
      some [some ⟨2, 2, 0, 0⟩, some ⟨1, 2, 2, 0⟩, some ⟨1, 2, 3, 0⟩] ∧
    ((([some (⟨2, 2, 0, 0⟩ : Geom), some ⟨1, 2, 2, 0⟩,
        some ⟨1, 2, 3, 0⟩].filterMap id).map
      (fun g => (cells g).card)).sum = 8) ∧
    (interiorCells 5 2 0 0).card = 10 ∧ (8 : ℕ) ≠ 10 := by
  refine ⟨by decide, by decide, by decide, by decide⟩

/-- A drawn rectangle with positive extent lying inside the interior
region (below/right of the `fh`/`fw` frame cells) of a `maxy × maxx`
window. -/
def geomInside (maxy maxx fh fw : ℤ) (g : Geom) : Prop :=
  1 ≤ g.nlines ∧ 1 ≤ g.ncols ∧ fh ≤ g.begy ∧ g.begy + g.nlines ≤ maxy ∧
  fw ≤ g.begx ∧ g.begx + g.ncols ≤ maxx

/-- Pairwise disjointness of the drawn rectangles of an assignment. -/
def asgDisjoint (asg : List (Option Geom)) : Prop :=
  ∀ (j1 j2 : ℕ) (g1 g2 : Geom), j1 ≠ j2 →
    asg[j1]? = some (some g1) → asg[j2]? = some (some g2) →
    Disjoint (cells g1) (cells g2)

/-- A rectangle drawn by an earlier strip (fully above row `sh`) or by
the current strip (row band `[sh, sh + h)`, columns ending before the
running `sum_width`). -/
def oldOrCur (sh h sw : ℤ) (g : Geom) : Prop :=
  g.begy + g.nlines ≤ sh ∨ (g.begy = sh ∧ g.nlines = h ∧ g.begx + g.ncols ≤ sw)

theorem cells_disjoint_rows {g1 g2 : Geom} (h : g1.begy + g1.nlines ≤ g2.begy) :
    Disjoint (cells g1) (cells g2) := by
  rw [Finset.disjoint_left]
  intro x hx1 hx2
  simp only [cells, Finset.mem_product, Finset.mem_Ico] at hx1 hx2
  omega

theorem cells_disjoint_cols {g1 g2 : Geom} (h : g1.begx + g1.ncols ≤ g2.begx) :
    Disjoint (cells g1) (cells g2) := by
  rw [Finset.disjoint_left]
  intro x hx1 hx2
  simp only [cells, Finset.mem_product, Finset.mem_Ico] at hx1 hx2
  omega

theorem cells_subset_interior {maxy maxx fh fw : ℤ} {g : Geom}
    (h : geomInside maxy maxx fh fw g) :
    cells g ⊆ interiorCells maxy maxx fh fw := by
  intro x hx
  simp only [cells, interiorCells, Finset.mem_product, Finset.mem_Ico] at hx ⊢
  obtain ⟨h1, h2, h3, h4, h5, h6⟩ := h
  omega

/-- Pairwise-disjoint rectangles contained in a region cover at most its
area. -/
theorem sum_area_le :
    ∀ (asg : List (Option Geom)) (S : Finset (ℤ × ℤ)),
    (∀ (j : ℕ) (g : Geom), asg[j]? = some (some g) → cells g ⊆ S) →
    asgDisjoint asg →
    ((asg.filterMap id).map (fun g => (cells g).card)).sum ≤ S.card := by
  intro asg
  induction asg with
  | nil => intro S _ _; simp
  | cons a t ih =>
    intro S hsub hdis
    cases a with
    | none =>
      rw [show ((none : Option Geom) :: t).filterMap id = t.filterMap id by simp]
      refine ih S ?_ ?_
      · intro j g hj
        exact hsub (j + 1) g (by simpa using hj)
      · intro j1 j2 g1 g2 hne h1 h2
        exact hdis (j1 + 1) (j2 + 1) g1 g2 (by omega) (by simpa using h1) (by simpa using h2)
    | some g =>
      have hg : cells g ⊆ S := hsub 0 g (by simp)
      have hrest : ((t.filterMap id).map (fun g => (cells g).card)).sum ≤ (S \ cells g).card := by
        refine ih (S \ cells g) ?_ ?_
        · intro j g' hj
          have hsub' : cells g' ⊆ S := hsub (j + 1) g' (by simpa using hj)
          have hdis' : Disjoint (cells g) (cells g') :=
            hdis 0 (j + 1) g g' (by omega) (by simp) (by simpa using hj)
          intro x hx
          rw [Finset.mem_sdiff]
          exact ⟨hsub' hx, fun hxg => Finset.disjoint_left.mp hdis' hxg hx⟩
        · intro j1 j2 g1 g2 hne h1 h2
          exact hdis (j1 + 1) (j2 + 1) g1 g2 (by omega) (by simpa using h1) (by simpa using h2)
      have hcard : (S \ cells g).card = S.card - (cells g).card := Finset.card_sdiff hg
      have hle : (cells g).card ≤ S.card := Finset.card_le_card hg
      rw [show (some g :: t).filterMap id = g :: t.filterMap id by simp]
      simp only [List.map_cons, List.sum_cons]
      omega

/-- Every exact height produced by the grouping loop is a non-negative
multiple of `size_fac / w_width`. -/
theorem groupGo_exacts (size_fac : ℚ) (w_width : ℤ) :
    ∀ (rem : List ℤ) (i : ℕ) (cur : ℕ × ℕ) (diff ss : ℚ) (acc : List ((ℕ × ℕ) × ℚ)),
    (∀ s ∈ rem, (0 : ℤ) ≤ s) →
    (∀ p ∈ acc, ∃ c : ℚ, 0 ≤ c ∧ p.2 = c * size_fac / (w_width : ℚ)) →
    (∃ c : ℚ, 0 ≤ c ∧ ss = c * size_fac) →
    ∀ p ∈ groupGo size_fac w_width rem i cur diff ss acc,
      ∃ c : ℚ, 0 ≤ c ∧ p.2 = c * size_fac / (w_width : ℚ) := by
  intro rem
  induction rem with
  | nil =>
    intro i cur diff ss acc _ hacc hss p hp
    rw [groupGo] at hp
    rcases List.mem_append.mp hp with h | h
    · exact hacc p h
    · rcases List.mem_singleton.mp h with rfl
      rcases hss with ⟨c, hc0, hc⟩
      exact ⟨c, hc0, by rw [hc]; try ring⟩
  | cons sz rest ih =>
    intro i cur diff ss acc hrem hacc hss p hp
    rw [groupGo] at hp
    have hsz : (0 : ℤ) ≤ sz := hrem sz (List.mem_cons_self sz rest)
    have hrem' : ∀ s ∈ rest, (0 : ℤ) ≤ s := fun s hs => hrem s (List.mem_cons_of_mem sz hs)
    split at hp
    · refine ih (i + 1) (i, i + 1) _ _ _ hrem' ?_ ?_ p hp
      · intro q hq
        rcases List.mem_append.mp hq with h | h
        · exact hacc q h
        · rcases List.mem_singleton.mp h with rfl
          rcases hss with ⟨c, hc0, hc⟩
          exact ⟨c, hc0, by rw [hc]; try ring⟩
      · exact ⟨(sz : ℚ), by exact_mod_cast hsz, by try ring⟩
    · refine ih (i + 1) (cur.1, i + 1) _ _ _ hrem' hacc ?_ p hp
      rcases hss with ⟨c, hc0, hc⟩
      refine ⟨c + (sz : ℚ), by positivity, by rw [hc]; try ring⟩

/-- Invariant of the member loop: on success, the running column only
grows, lengths are preserved, every drawn rectangle is inside the
interior and either above the current strip or inside its band ending
before the final running column, and drawn rectangles stay pairwise
disjoint. -/
theorem placeMembers_inv (maxy maxx fh fw h sh : ℤ) (hsh : fh ≤ sh) :
    ∀ (js : List ℕ) (ws : List ℤ) (sw : ℤ) (asg : List (Option Geom))
      (out : ℤ × List (Option Geom)),
    placeMembers maxy maxx h sh js ws sw asg = some out →
    fw ≤ sw →
    (∀ (j : ℕ) (g : Geom), asg[j]? = some (some g) →
      geomInside maxy maxx fh fw g ∧ oldOrCur sh h sw g) →
    asgDisjoint asg →
    sw ≤ out.1 ∧ fw ≤ out.1 ∧ out.2.length = asg.length ∧
    (∀ (j : ℕ) (g : Geom), out.2[j]? = some (some g) →
      geomInside maxy maxx fh fw g ∧ oldOrCur sh h out.1 g) ∧
    asgDisjoint out.2 := by
  intro js
  induction js with
  | nil =>
    intro ws sw asg out hp hsw hinv hdis
    rw [placeMembers] at hp
    have : (sw, asg) = out := Option.some_inj.mp hp
    rw [← this]
    exact ⟨le_refl _, hsw, rfl, hinv, hdis⟩
  | cons j js ih =>
    intro ws sw asg out hp hsw hinv hdis
    cases ws with
    | nil => rw [placeMembers] at hp; exact absurd hp (by simp)
    | cons w ws =>
      rw [placeMembers] at hp
      by_cases hw : w = 0
      · rw [if_pos hw] at hp
        exact ih ws sw asg out hp hsw hinv hdis
      · rw [if_neg hw] at hp
        split at hp
        next hguard =>
          obtain ⟨hh1, hw1, hsh0, hsw0, hhm, hwm⟩ := hguard
          split at hp
          next hj =>
            set g' : Geom := ⟨h, w, sh, sw⟩ with hg'
            have hginside : geomInside maxy maxx fh fw g' := by
              exact ⟨hh1, hw1, hsh, hhm, hsw, hwm⟩
            have hinv' : ∀ (j' : ℕ) (g : Geom),
                (asg.set j (some g'))[j']? = some (some g) →
                geomInside maxy maxx fh fw g ∧ oldOrCur sh h (sw + w) g := by
              intro j' g hj'
              by_cases hjj : j = j'
              · subst hjj
                rw [List.getElem?_set_self hj] at hj'
                have : g' = g := by
                  have := Option.some_inj.mp hj'
                  exact Option.some_inj.mp this
                rw [← this]
                refine ⟨hginside, Or.inr ⟨rfl, rfl, ?_⟩⟩
                simp [hg']
              · rw [List.getElem?_set_ne hjj] at hj'
                rcases hinv j' g hj' with ⟨h1, h2⟩
                refine ⟨h1, ?_⟩
                rcases h2 with h2 | ⟨h2a, h2b, h2c⟩
                · exact Or.inl h2
                · exact Or.inr ⟨h2a, h2b, by omega⟩
            have hdis' : asgDisjoint (asg.set j (some g')) := by
              intro j1 j2 g1 g2 hne h1 h2
              by_cases hj1 : j = j1
              · subst hj1
                rw [List.getElem?_set_self hj] at h1
                have hg1 : g' = g1 := Option.some_inj.mp (Option.some_inj.mp h1)
                rw [List.getElem?_set_ne (by omega)] at h2
                rcases hinv j2 g2 h2 with ⟨_, hc⟩
                rcases hc with hc | ⟨hca, hcb, hcc⟩
                · exact (cells_disjoint_rows (by rw [← hg1]; exact hc)).symm
                · exact (cells_disjoint_cols (by rw [← hg1]; simp [hg']; omega)).symm
              · by_cases hj2 : j = j2
                · subst hj2
                  rw [List.getElem?_set_self hj] at h2
                  have hg2 : g' = g2 := Option.some_inj.mp (Option.some_inj.mp h2)
                  rw [List.getElem?_set_ne (by omega)] at h1
                  rcases hinv j1 g1 h1 with ⟨_, hc⟩
                  rcases hc with hc | ⟨hca, hcb, hcc⟩
                  · exact cells_disjoint_rows (by rw [← hg2]; exact hc)
                  · exact cells_disjoint_cols (by rw [← hg2]; simp [hg']; omega)
                · rw [List.getElem?_set_ne hj1] at h1
                  rw [List.getElem?_set_ne hj2] at h2
                  exact hdis j1 j2 g1 g2 hne h1 h2
            have := ih ws (sw + w) (asg.set j (some g')) out hp (by omega) hinv' hdis'
            obtain ⟨ha, hb, hc, hd, he⟩ := this
            exact ⟨by omega, hb, by rw [hc]; simp, hd, he⟩
          next => exact absurd hp (by simp)
        next => exact absurd hp (by simp)

/-- Invariant of the strip loop (the case where all reconciled strip
heights are non-negative): lengths are preserved, every drawn rectangle
lies inside the interior, and drawn rectangles are pairwise disjoint. -/
theorem placeStrips_inv (sizes : List ℤ) (size_fac : ℚ) (w_width maxy maxx fw fh : ℤ) :
    ∀ (strips : List ((ℕ × ℕ) × ℚ)) (hts : List ℤ) (sh : ℤ)
      (asg out : List (Option Geom)),
    placeStrips sizes size_fac w_width maxy maxx fw strips hts sh asg = some out →
    fh ≤ sh →
    (∀ x ∈ hts, 0 ≤ x) →
    (∀ (j : ℕ) (g : Geom), asg[j]? = some (some g) →
      geomInside maxy maxx fh fw g ∧ g.begy + g.nlines ≤ sh) →
    asgDisjoint asg →
    out.length = asg.length ∧
    (∀ (j : ℕ) (g : Geom), out[j]? = some (some g) → geomInside maxy maxx fh fw g) ∧
    asgDisjoint out := by
  intro strips
  induction strips with
  | nil =>
    intro hts sh asg out hp _ _ hinv hdis
    rw [placeStrips] at hp
    have : asg = out := Option.some_inj.mp hp
    rw [← this]
    exact ⟨rfl, fun j g hj => (hinv j g hj).1, hdis⟩
  | cons strip strips ih =>
    intro hts sh asg out hp hsh hhts hinv hdis
    obtain ⟨se, ex⟩ := strip
    cases hts with
    | nil => rw [placeStrips] at hp; exact absurd hp (by simp)
    | cons h hs =>
      rw [placeStrips] at hp
      by_cases hz : h = 0
      · rw [if_pos hz] at hp
        exact ih hs sh asg out hp hsh (fun x hx => hhts x (List.mem_cons_of_mem h hx))
          hinv hdis
      · rw [if_neg hz] at hp
        rcases Option.bind_eq_some.mp hp with ⟨wexact, hwe, hp2⟩
        rcases Option.bind_eq_some.mp hp2 with ⟨widths, hwid, hp3⟩
        rcases Option.bind_eq_some.mp hp3 with ⟨mout, hmem, hp4⟩
        have hhpos : 0 ≤ h := hhts h (List.mem_cons_self h hs)
        have hminv := placeMembers_inv maxy maxx fh fw h sh hsh
          (List.range' se.1 (se.2 - se.1)) widths fw asg mout hmem (le_refl fw)
          (fun j g hj => ⟨(hinv j g hj).1, Or.inl (hinv j g hj).2⟩) hdis
        obtain ⟨_, _, hmlen, hminv2, hmdis⟩ := hminv
        have hinv' : ∀ (j : ℕ) (g : Geom), mout.2[j]? = some (some g) →
            geomInside maxy maxx fh fw g ∧ g.begy + g.nlines ≤ sh + h := by
          intro j g hj
          rcases hminv2 j g hj with ⟨h1, h2⟩
          refine ⟨h1, ?_⟩
          rcases h2 with h2 | ⟨h2a, h2b, _⟩
          · omega
          · omega
        have := ih hs (sh + h) mout.2 out hp4 (by omega)
          (fun x hx => hhts x (List.mem_cons_of_mem h hx)) hinv' hmdis
        obtain ⟨ha, hb, hc⟩ := this
        exact ⟨by rw [ha, hmlen], hb, hc⟩

/-- When every reconciled strip height is `≤ 0`, a successful strip loop
draws nothing and leaves the assignment unchanged (a strip with a
non-zero height and a drawable member would make `derwin` fail). -/
theorem placeMembers_no_draw (maxy maxx h sh : ℤ) (hh : h ≤ 0) :
    ∀ (js : List ℕ) (ws : List ℤ) (sw : ℤ) (asg : List (Option Geom))
      (out : ℤ × List (Option Geom)),
    placeMembers maxy maxx h sh js ws sw asg = some out → out = (sw, asg) := by
  intro js
  induction js with
  | nil =>
    intro ws sw asg out hp
    rw [placeMembers] at hp
    exact (Option.some_inj.mp hp).symm
  | cons j js ih =>
    intro ws sw asg out hp
    cases ws with
    | nil => rw [placeMembers] at hp; exact absurd hp (by simp)
    | cons w ws =>
      rw [placeMembers] at hp
      by_cases hw : w = 0
      · rw [if_pos hw] at hp
        exact ih ws sw asg out hp
      · rw [if_neg hw] at hp
        split at hp
        next hguard => omega
        next => exact absurd hp (by simp)

theorem placeStrips_no_draw (sizes : List ℤ) (size_fac : ℚ)
    (w_width maxy maxx fw : ℤ) :
    ∀ (strips : List ((ℕ × ℕ) × ℚ)) (hts : List ℤ) (sh : ℤ)
      (asg out : List (Option Geom)),
    placeStrips sizes size_fac w_width maxy maxx fw strips hts sh asg = some out →
    (∀ x ∈ hts, x ≤ 0) →
    out = asg := by
  intro strips
  induction strips with
  | nil =>
    intro hts sh asg out hp _
    rw [placeStrips] at hp
    exact (Option.some_inj.mp hp).symm
  | cons strip strips ih =>
    intro hts sh asg out hp hhts
    obtain ⟨se, ex⟩ := strip
    cases hts with
    | nil => rw [placeStrips] at hp; exact absurd hp (by simp)
    | cons h hs =>
      rw [placeStrips] at hp
      by_cases hz : h = 0
      · rw [if_pos hz] at hp
        exact ih hs sh asg out hp (fun x hx => hhts x (List.mem_cons_of_mem h hx))
      · rw [if_neg hz] at hp
        rcases Option.bind_eq_some.mp hp with ⟨wexact, hwe, hp2⟩
        rcases Option.bind_eq_some.mp hp2 with ⟨widths, hwid, hp3⟩
        rcases Option.bind_eq_some.mp hp3 with ⟨mout, hmem, hp4⟩
        have hmz := placeMembers_no_draw maxy maxx h sh
          (hhts h (List.mem_cons_self h hs)) _ widths fw asg mout hmem
        rw [hmz] at hp4
        exact ih hs (sh + h) asg out hp4 (fun x hx => hhts x (List.mem_cons_of_mem h hx))

/-- The all-`none` assignment satisfies every geometric conclusion. -/
theorem none_assignment_conclusions (n : ℕ) (S : Finset (ℤ × ℤ)) :
    (List.replicate n (none : Option Geom)).length = n ∧
    (∀ (j : ℕ) (g : Geom),
      (List.replicate n (none : Option Geom))[j]? = some (some g) → cells g ⊆ S) ∧
    asgDisjoint (List.replicate n (none : Option Geom)) ∧
    (((List.replicate n (none : Option Geom)).filterMap id).map
        (fun g => (cells g).card)).sum ≤ S.card := by
  have hent : ∀ (j : ℕ) (g : Geom),
      (List.replicate n (none : Option Geom))[j]? = some (some g) → False := by
    intro j g h
    rw [List.getElem?_replicate] at h
    split at h
    · simp at h
    · simp at h
  refine ⟨by simp, fun j g h => absurd h (fun h => hent j g h), ?_, ?_⟩
  · intro j1 j2 g1 g2 _ h1 _
    exact absurd h1 (fun h => hent j1 g1 h)
  · have : (List.replicate n (none : Option Geom)).filterMap id = [] := by
      induction n with
      | zero => simp
      | succ m ih => simpa [List.replicate_succ] using ih
    rw [this]
    simp

/-- Claim C3 (amended): in one layout pass over a directory with
non-negative child sizes and non-negative total size, the geometries
assigned to the drawn children are pairwise non-overlapping rectangles,
each lying entirely inside the parent's interior region (the window
minus its frame cells), and their total area is at most the interior
area. (The further clause of the claim — that any shortfall is
attributable exactly to members discarded for zero width or zero strip
height — is refuted by `layoutGeoms_shortfall_without_discards`: the
reconciler can also lose rows to claim C2's selection defect.) -/
theorem layoutGeoms_children_geometry (sizes : List ℤ) (size maxy maxx : ℤ)
    (isRoot draw_frame : Bool) (asg : List (Option Geom))
    (hszs : ∀ s ∈ sizes, 0 ≤ s) (hsz : 0 ≤ size)
    (hsucc : layoutGeoms sizes size maxy maxx isRoot draw_frame = some asg) :
    asg.length = sizes.length ∧
    (∀ (j : ℕ) (g : Geom), asg[j]? = some (some g) →
      cells g ⊆ interiorCells maxy maxx
        ((frame_size isRoot).1 * b2i draw_frame)
        ((frame_size isRoot).2 * b2i draw_frame)) ∧
    asgDisjoint asg ∧
    ((asg.filterMap id).map (fun g => (cells g).card)).sum ≤
      (interiorCells maxy maxx ((frame_size isRoot).1 * b2i draw_frame)
        ((frame_size isRoot).2 * b2i draw_frame)).card := by
  set fh : ℤ := (frame_size isRoot).1 * b2i draw_frame with hfh
  set fw : ℤ := (frame_size isRoot).2 * b2i draw_frame with hfw
  set S : Finset (ℤ × ℤ) := interiorCells maxy maxx fh fw with hS
  rw [layoutGeoms] at hsucc
  by_cases hs0 : size = 0
  · rw [if_pos hs0] at hsucc
    have hasg : List.replicate sizes.length none = asg := Option.some_inj.mp hsucc
    rw [← hasg]
    exact none_assignment_conclusions sizes.length S
  · rw [if_neg hs0] at hsucc
    by_cases hdim : interior_width maxx isRoot draw_frame = 0 ∨
        interior_height maxy isRoot draw_frame = 0
    · rw [if_pos hdim] at hsucc
      have hasg : List.replicate sizes.length none = asg := Option.some_inj.mp hsucc
      rw [← hasg]
      exact none_assignment_conclusions sizes.length S
    · rw [if_neg hdim] at hsucc
      rcases Option.bind_eq_some.mp hsucc with ⟨heights, hhts, hplace⟩
      push_neg at hdim
      obtain ⟨hW, hH⟩ := hdim
      have hWQ : ((interior_width maxx isRoot draw_frame : ℤ) : ℚ) ≠ 0 := by
        exact_mod_cast hW
      have hsizeQ : (0 : ℚ) < (size : ℚ) := by
        have : 0 < size := lt_of_le_of_ne hsz (Ne.symm hs0)
        exact_mod_cast this
      -- every exact strip height has the sign of the interior height
      have hexact : ∀ q ∈ (stripsOf sizes size maxy maxx isRoot draw_frame).map
          (fun p => p.2), ∃ c : ℚ, 0 ≤ c ∧
          q = c * ((interior_height maxy isRoot draw_frame : ℤ) : ℚ) / (size : ℚ) := by
        intro q hq
        rcases List.mem_map.mp hq with ⟨p, hp, hpq⟩
        have := groupGo_exacts (size_fac_of size maxy maxx isRoot draw_frame)
          (interior_width maxx isRoot draw_frame) sizes 0 (0, 1) 1000 0 []
          hszs (by simp) ⟨0, le_refl 0, by ring⟩ p hp
        rcases this with ⟨c, hc0, hc⟩
        refine ⟨c, hc0, ?_⟩
        rw [← hpq, hc, size_fac_of]
        field_simp
        ring
      -- hence every reconciled strip height has that sign too
      have hmemlem := increase_n_highest_mem hhts
      have hsigns : ∀ x ∈ heights,
          (0 ≤ interior_height maxy isRoot draw_frame → 0 ≤ x) ∧
          (interior_height maxy isRoot draw_frame < 0 → x ≤ 0) := by
        intro x hx
        rcases List.mem_iff_getElem?.mp hx with ⟨k, hk⟩
        rcases hmemlem.2 k with hc | hc
        all_goals {
          rw [hk] at hc
          match he : ((stripsOf sizes size maxy maxx isRoot draw_frame).map
              (fun p => p.2))[k]? with
          | none => rw [he] at hc; exact absurd hc (by simp)
          | some e =>
            rw [he] at hc
            have hee : e ∈ (stripsOf sizes size maxy maxx isRoot draw_frame).map
                (fun p => p.2) := List.getElem?_mem he
            rcases hexact e hee with ⟨c, hc0, hce⟩
            have hxval := Option.some_inj.mp hc
            constructor
            · intro hpos
              have he0 : 0 ≤ e := by
                rw [hce]
                have : (0 : ℚ) ≤ ((interior_height maxy isRoot draw_frame : ℤ) : ℚ) := by
                  exact_mod_cast hpos
                positivity
              rw [hxval]
              first
              | exact Int.floor_nonneg.mpr he0
              | exact Int.ceil_nonneg he0
            · intro hneg
              have he0 : e ≤ 0 := by
                rw [hce]
                have hc1 : ((interior_height maxy isRoot draw_frame : ℤ) : ℚ) ≤ 0 := by
                  exact_mod_cast le_of_lt hneg
                have := mul_nonpos_of_nonneg_of_nonpos hc0 hc1
                exact div_nonpos_of_nonpos_of_nonneg this (le_of_lt hsizeQ)
              rw [hxval]
              first
              | exact Int.floor_nonpos he0
              | exact Int.ceil_le.mpr (by exact_mod_cast he0)
        }
      by_cases hHsign : 0 ≤ interior_height maxy isRoot draw_frame
      · -- all strip heights non-negative: the placement invariant applies
        have hA : ∀ x ∈ heights, 0 ≤ x := fun x hx => (hsigns x hx).1 hHsign
        have := placeStrips_inv sizes (size_fac_of size maxy maxx isRoot draw_frame)
          (interior_width maxx isRoot draw_frame) maxy maxx fw fh
          (stripsOf sizes size maxy maxx isRoot draw_frame) heights fh
          (List.replicate sizes.length none) asg hplace (le_refl fh) hA
          (fun j g hj => absurd hj (by
            intro h
            rw [List.getElem?_replicate] at h
            split at h
            · simp at h
            · simp at h))
          (fun j1 j2 g1 g2 _ h1 _ => absurd h1 (by
            intro h
            rw [List.getElem?_replicate] at h
            split at h
            · simp at h
            · simp at h))
        obtain ⟨hlen, hinside, hdisj⟩ := this
        have hsub : ∀ (j : ℕ) (g : Geom), asg[j]? = some (some g) → cells g ⊆ S :=
          fun j g hj => cells_subset_interior (hinside j g hj)
        exact ⟨by rw [hlen]; simp, hsub, hdisj, sum_area_le asg S hsub hdisj⟩
      · -- all strip heights non-positive: nothing is drawn
        push_neg at hHsign
        have hB : ∀ x ∈ heights, x ≤ 0 := fun x hx => (hsigns x hx).2 hHsign
        have hun := placeStrips_no_draw sizes
          (size_fac_of size maxy maxx isRoot draw_frame)
          (interior_width maxx isRoot draw_frame) maxy maxx fw
          (stripsOf sizes size maxy maxx isRoot draw_frame) heights fh
          (List.replicate sizes.length none) asg hplace hB
        rw [hun]
        exact none_assignment_conclusions sizes.length S

/-- Witness for `layoutGeoms_children_geometry` at the sizes `4, 3, 3`
in a frameless `5 × 2` window. -/
theorem layoutGeoms_children_geometry_witness :
    ([some (⟨2, 2, 0, 0⟩ : Geom), some ⟨1, 2, 2, 0⟩,
        some ⟨1, 2, 3, 0⟩] : List (Option Geom)).length = ([4, 3, 3] : List ℤ).length ∧
    (∀ (j : ℕ) (g : Geom),
      ([some (⟨2, 2, 0, 0⟩ : Geom), some ⟨1, 2, 2, 0⟩,
        some ⟨1, 2, 3, 0⟩] : List (Option Geom))[j]? = some (some g) →
      cells g ⊆ interiorCells 5 2 ((frame_size false).1 * b2i false)
        ((frame_size false).2 * b2i false)) ∧
    asgDisjoint [some (⟨2, 2, 0, 0⟩ : Geom), some ⟨1, 2, 2, 0⟩, some ⟨1, 2, 3, 0⟩] ∧
    ((([some (⟨2, 2, 0, 0⟩ : Geom), some ⟨1, 2, 2, 0⟩,
        some ⟨1, 2, 3, 0⟩] : List (Option Geom)).filterMap id).map
      (fun g => (cells g).card)).sum ≤
      (interiorCells 5 2 ((frame_size false).1 * b2i false)
        ((frame_size false).2 * b2i false)).card :=
  layoutGeoms_children_geometry [4, 3, 3] 10 5 2 false false
    [some ⟨2, 2, 0, 0⟩, some ⟨1, 2, 2, 0⟩, some ⟨1, 2, 3, 0⟩]
    (by decide) (by decide) (by decide)

mutual
/-- A node of the hierarchy: `fsvFile` (leaf) or `fsvDirectory` /
`fsvParentDirectory` (`isRoot` distinguishes the root subclass, which
has `frame_size = (1, 0)`). `window` is the cached curses window in
absolute grid coordinates, `None` until `set_window` first runs. -/
inductive fsvNode where
  | file (name : List Char) (size : ℤ) (window : Option Geom)
  | dir (isRoot : Bool) (name : List Char) (size : ℤ) (files : fsvList)
      (window : Option Geom)

/-- The `self._files` list of a directory. -/
inductive fsvList where
  | nil
  | cons (head : fsvNode) (tail : fsvList)
end

deriving instance DecidableEq for fsvNode
deriving instance DecidableEq for fsvList
deriving instance Repr for fsvNode
deriving instance Repr for fsvList

/-- `fsvFile.size` / directory size accessor (src/filesizeview.py:65–66). -/
def fsvNode.size : fsvNode → ℤ
  | .file _ s _ => s
  | .dir _ _ s _ _ => s

/-- The cached `self._window` of a node. -/
def fsvNode.window : fsvNode → Option Geom
  | .file _ _ w => w
  | .dir _ _ _ _ w => w

/-- The children of a node (empty for files). -/
def fsvList.toList : fsvList → List fsvNode
  | .nil => []
  | .cons h t => h :: t.toList

def fsvList.ofList : List fsvNode → fsvList
  | [] => .nil
  | h :: t => .cons h (fsvList.ofList t)

/-- The children of a node as a `List` (files have none). -/
def fsvNode.childrenList : fsvNode → List fsvNode
  | .file _ _ _ => []
  | .dir _ _ _ files _ => files.toList

mutual
/-- `calculate_content` (src/filesizeview.py:74–85 for files, 136–200
for directories), restricted to window geometry: the caller's
`set_window(win)` followed by `calculate_content` is modelled by passing
`win` (absolute coordinates) and storing it on the node. A file only
draws text. A directory computes its children's geometry assignment
(`layoutGeoms`), gives each drawn child its `derwin` window — made
absolute by offsetting with the directory's own window position — and
recurses into it; a child that is not drawn is left untouched, stale
window included. -/
def fsvNode.calculate_content (df : Bool) : fsvNode → Geom → Option fsvNode
  | .file name s _, win => some (.file name s (some win))
  | .dir r name s files _, win => do
    let asg ← layoutGeoms (files.toList.map fsvNode.size) s win.nlines win.ncols r df
    let files' ← fsvList.calcChildren df files asg win
    some (.dir r name s files' (some win))

/-- The per-child walk of `calculate_content`: drawn children get their
(absolute) window and are recursed into; undrawn children are left
untouched. Fails if the assignment list does not match the child list
(impossible for `layoutGeoms` output). -/
def fsvList.calcChildren (df : Bool) :
    fsvList → List (Option Geom) → Geom → Option fsvList
  | .nil, [], _ => some .nil
  | .nil, _ :: _, _ => none
  | .cons _ _, [], _ => none
  | .cons f fs, a :: as_, win =>
    match a with
    | none => do
      let rest ← fsvList.calcChildren df fs as_ win
      some (.cons f rest)
    | some rel => do
      let child ← fsvNode.calculate_content df f
        ⟨rel.nlines, rel.ncols, win.begy + rel.begy, win.begx + rel.begx⟩
      let rest ← fsvList.calcChildren df fs as_ win
      some (.cons child rest)
end

/-- `fsvFile.contains_point` (src/filesizeview.py:87–96): the cached
window, when present, contains the grid point. -/
def fsvNode.contains_point (t : fsvNode) (y x : ℤ) : Bool :=
  match t.window with
  | none => false
  | some g =>
    decide (g.begy ≤ y) && decide (y < g.begy + g.nlines) &&
    decide (g.begx ≤ x) && decide (x < g.begx + g.ncols)

mutual
/-- `get_path` (src/filesizeview.py:109–112 for files, 229–236 for
directories): `None` when the point is outside the node's cached
window; otherwise the node followed by the first child chain that
claims the point (Python's `if p:` treats `None` and `[]` as falsy). -/
def fsvNode.get_path (t : fsvNode) (y x : ℤ) : Option (List fsvNode) :=
  if t.contains_point y x = false then none
  else
    match t with
    | .file _ _ _ => some [t]
    | .dir _ _ _ files _ =>
      match fsvList.findPath files y x with
      | some (p :: ps) => some (t :: p :: ps)
      | _ => some [t]

/-- The `for f in self._files: p = f.get_path(y, x); if p: return [self] + p`
loop: the first truthy child path. -/
def fsvList.findPath : fsvList → ℤ → ℤ → Option (List fsvNode)
  | .nil, _, _ => none
  | .cons f fs, y, x =>
    match f.get_path y x with
    | some (p :: ps) => some (p :: ps)
    | _ => fsvList.findPath fs y x
end

theorem fsvNode.get_path_eq (t : fsvNode) (y x : ℤ) :
    t.get_path y x =
      if t.contains_point y x = false then none
      else
        match t with
        | .file _ _ _ => some [t]
        | .dir _ _ _ files _ =>
          match fsvList.findPath files y x with
          | some (p :: ps) => some (t :: p :: ps)
          | _ => some [t] := by
  cases t with
  | file name s w => rfl
  | dir r name s files w => rfl

theorem fsvList.findPath_nil (y x : ℤ) : fsvList.findPath .nil y x = none := rfl

theorem fsvList.findPath_cons (f : fsvNode) (fs : fsvList) (y x : ℤ) :
    fsvList.findPath (.cons f fs) y x =
      match f.get_path y x with
      | some (p :: ps) => some (p :: ps)
      | _ => fsvList.findPath fs y x := rfl

mutual
/-- Claim C5 (amended), node part: `get_path` returns `none` exactly
when the point is outside the node's own cached window (frame cells and
unallocated cells inside it included — those yield `[node]`, not an
empty result, see `get_path_unallocated_not_empty`); a returned chain
starts at the node, every chain member's cached geometry contains the
point, consecutive members are parent and child, and no child of the
last member contains the point. The locator only reads cached windows. -/
theorem fsvNode.get_path_spec (t : fsvNode) (y x : ℤ) :
    (t.get_path y x = none ↔ t.contains_point y x = false) ∧
    (∀ l, t.get_path y x = some l →
      l.head? = some t ∧
      (∀ n ∈ l, n.contains_point y x = true) ∧
      List.Chain' (fun a b => b ∈ a.childrenList) l ∧
      (∀ d, l.getLast? = some d → ∀ c ∈ d.childrenList,
        c.contains_point y x = false)) := by
  match t with
  | .file name s w =>
    by_cases hc : (fsvNode.file name s w).contains_point y x = false
    · have hnone : (fsvNode.file name s w).get_path y x = none := by
        rw [fsvNode.get_path_eq, if_pos hc]
      refine ⟨⟨fun _ => hc, fun _ => hnone⟩, ?_⟩
      intro l hl
      rw [hnone] at hl
      exact absurd hl (by simp)
    · have hct : (fsvNode.file name s w).contains_point y x = true := by
        revert hc
        cases (fsvNode.file name s w).contains_point y x <;> simp
      have hsome : (fsvNode.file name s w).get_path y x =
          some [fsvNode.file name s w] := by
        rw [fsvNode.get_path_eq, if_neg hc]
      refine ⟨⟨fun h => absurd (hsome ▸ h) (by simp), fun h => absurd h hc⟩, ?_⟩
      intro l hl
      rw [hsome] at hl
      have hleq : [fsvNode.file name s w] = l := Option.some_inj.mp hl
      rw [← hleq]
      refine ⟨rfl, ?_, by simp, ?_⟩
      · intro n hn
        rcases List.mem_singleton.mp hn with rfl
        exact hct
      · intro d hd c hcmem
        have hdd : fsvNode.file name s w = d := by simpa using hd
        rw [← hdd] at hcmem
        simp [fsvNode.childrenList] at hcmem
  | .dir r name s files w =>
    have hspec := fsvList.findPath_spec files y x
    by_cases hc : (fsvNode.dir r name s files w).contains_point y x = false
    · have hnone : (fsvNode.dir r name s files w).get_path y x = none := by
        rw [fsvNode.get_path_eq, if_pos hc]
      refine ⟨⟨fun _ => hc, fun _ => hnone⟩, ?_⟩
      intro l hl
      rw [hnone] at hl
      exact absurd hl (by simp)
    · have hct : (fsvNode.dir r name s files w).contains_point y x = true := by
        revert hc
        cases (fsvNode.dir r name s files w).contains_point y x <;> simp
      have hbody : (fsvNode.dir r name s files w).get_path y x =
          (match fsvList.findPath files y x with
           | some (p :: ps) => some (fsvNode.dir r name s files w :: p :: ps)
           | _ => some [fsvNode.dir r name s files w]) := by
        rw [fsvNode.get_path_eq, if_neg hc]
      match hfp : fsvList.findPath files y x with
      | some (p :: ps) =>
        rw [hfp] at hbody
        refine ⟨⟨fun h => absurd (hbody ▸ h) (by simp), fun h => absurd h hc⟩, ?_⟩
        intro l hl
        rw [hbody] at hl
        have hleq : fsvNode.dir r name s files w :: p :: ps = l := Option.some_inj.mp hl
        rcases hspec.1 (p :: ps) hfp with ⟨⟨f, hfmem, hfhead⟩, hall, hchain, hlast⟩
        have hpf : f = p := by
          have := hfhead
          simp at this
          exact this.symm
        rw [← hleq]
        refine ⟨rfl, ?_, ?_, ?_⟩
        · intro n hn
          rcases List.mem_cons.mp hn with rfl | hn
          · exact hct
          · exact hall n hn
        · refine List.chain'_cons.mpr ⟨?_, hchain⟩
          rw [← hpf]
          simpa [fsvNode.childrenList] using hfmem
        · intro d hd c hcmem
          rw [List.getLast?_cons_cons] at hd
          exact hlast d hd c hcmem
      | some [] =>
        rw [hfp] at hbody
        refine ⟨⟨fun h => absurd (hbody ▸ h) (by simp), fun h => absurd h hc⟩, ?_⟩
        intro l hl
        rw [hbody] at hl
        have hleq : [fsvNode.dir r name s files w] = l := Option.some_inj.mp hl
        rw [← hleq]
        refine ⟨rfl, ?_, by simp, ?_⟩
        · intro n hn
          rcases List.mem_singleton.mp hn with rfl
          exact hct
        · intro d hd c hcmem
          have hdd : fsvNode.dir r name s files w = d := by simpa using hd
          rw [← hdd] at hcmem
          refine hspec.2 (fun p ps h => ?_) c
            (by simpa [fsvNode.childrenList] using hcmem)
          rw [hfp] at h
          simp at h
      | none =>
        rw [hfp] at hbody
        refine ⟨⟨fun h => absurd (hbody ▸ h) (by simp), fun h => absurd h hc⟩, ?_⟩
        intro l hl
        rw [hbody] at hl
        have hleq : [fsvNode.dir r name s files w] = l := Option.some_inj.mp hl
        rw [← hleq]
        refine ⟨rfl, ?_, by simp, ?_⟩
        · intro n hn
          rcases List.mem_singleton.mp hn with rfl
          exact hct
        · intro d hd c hcmem
          have hdd : fsvNode.dir r name s files w = d := by simpa using hd
          rw [← hdd] at hcmem
          refine hspec.2 (fun p ps h => ?_) c
            (by simpa [fsvNode.childrenList] using hcmem)
          rw [hfp] at h
          simp at h

/-- Claim C5 (amended), child-walk part: a chain found among the
children starts at one of them and satisfies the chain invariants; if
no child yields a non-empty chain, no child's cached geometry contains
the point. -/
theorem fsvList.findPath_spec (fs : fsvList) (y x : ℤ) :
    (∀ l, fsvList.findPath fs y x = some l →
      (∃ f ∈ fs.toList, l.head? = some f) ∧
      (∀ n ∈ l, n.contains_point y x = true) ∧
      List.Chain' (fun a b => b ∈ a.childrenList) l ∧
      (∀ d, l.getLast? = some d → ∀ c ∈ d.childrenList,
        c.contains_point y x = false)) ∧
    ((∀ p ps, fsvList.findPath fs y x ≠ some (p :: ps)) →
      ∀ f ∈ fs.toList, f.contains_point y x = false) := by
  match fs with
  | .nil =>
    constructor
    · intro l hl
      rw [fsvList.findPath_nil] at hl
      exact absurd hl (by simp)
    · intro _ f hf
      simp [fsvList.toList] at hf
  | .cons f fs =>
    have hfspec := fsvNode.get_path_spec f y x
    have htspec := fsvList.findPath_spec fs y x
    have hbody := fsvList.findPath_cons f fs y x
    match hgp : f.get_path y x with
    | some (p :: ps) =>
      rw [hgp] at hbody
      constructor
      · intro l hl
        rw [hbody] at hl
        have hleq : p :: ps = l := Option.some_inj.mp hl
        rcases hfspec.2 (p :: ps) hgp with ⟨hhead, hall, hchain, hlast⟩
        have hpf : f = p := by simpa using hhead.symm
        rw [← hleq]
        exact ⟨⟨f, by simp [fsvList.toList], by rw [← hpf]; rfl⟩,
          hall, hchain, hlast⟩
      · intro hno
        exact absurd hbody (hno p ps)
    | some [] =>
      exfalso
      rcases hfspec.2 [] hgp with ⟨hhead, _⟩
      simp at hhead
    | none =>
      rw [hgp] at hbody
      have hfc : f.contains_point y x = false := hfspec.1.mp hgp
      constructor
      · intro l hl
        rw [hbody] at hl
        rcases htspec.1 l hl with ⟨⟨f', hf'mem, hf'head⟩, hall, hchain, hlast⟩
        exact ⟨⟨f', by simp [fsvList.toList, hf'mem], hf'head⟩, hall, hchain, hlast⟩
      · intro hno f' hf'
        rcases List.mem_cons.mp (by simpa [fsvList.toList] using hf') with rfl | hf'
        · exact hfc
        · refine htspec.2 (fun p ps h => hno p ps ?_) f' hf'
          rw [hbody]
          exact h
end

/-- Claim C5 (amended): for every node and grid point, the Path Locator
returns `none` exactly when the point lies outside the node's own
cached window; when it returns a chain, the chain starts at the node,
every member's cached geometry contains the point, consecutive members
are parent and child, and no child of the last member's cached geometry
covers the point. Points on frame cells or unallocated cells inside the
root's window yield the chain `[root]`, not an empty result (the
original claim's empty-result clause is refuted by
`get_path_unallocated_not_empty`). The locator reads only cached
windows and never recomputes layout. -/
theorem get_path_locator_spec (t : fsvNode) (y x : ℤ) :
    (t.get_path y x = none ↔ t.contains_point y x = false) ∧
    (∀ l, t.get_path y x = some l →
      l.head? = some t ∧
      (∀ n ∈ l, n.contains_point y x = true) ∧
      List.Chain' (fun a b => b ∈ a.childrenList) l ∧
      (∀ d, l.getLast? = some d → ∀ c ∈ d.childrenList,
        c.contains_point y x = false)) :=
  fsvNode.get_path_spec t y x

/-- Witness for `get_path_locator_spec`: a zero-size root whose window
covers the point yields the one-element chain `[root]`, whose members
all contain the point. -/
theorem get_path_locator_spec_witness :
    ([fsvNode.dir true ['d'] 0 (.cons (.file ['a'] 0 none) .nil)
        (some ⟨2, 2, 0, 0⟩)].head? =
      some (fsvNode.dir true ['d'] 0 (.cons (.file ['a'] 0 none) .nil)
        (some ⟨2, 2, 0, 0⟩))) ∧
    (∀ n ∈ [fsvNode.dir true ['d'] 0 (.cons (.file ['a'] 0 none) .nil)
        (some ⟨2, 2, 0, 0⟩)], n.contains_point 0 0 = true) ∧
    List.Chain' (fun a b => b ∈ a.childrenList)
      [fsvNode.dir true ['d'] 0 (.cons (.file ['a'] 0 none) .nil)
        (some ⟨2, 2, 0, 0⟩)] ∧
    (∀ d, ([fsvNode.dir true ['d'] 0 (.cons (.file ['a'] 0 none) .nil)
        (some ⟨2, 2, 0, 0⟩)].getLast? = some d) → ∀ c ∈ d.childrenList,
        c.contains_point 0 0 = false) :=
  (get_path_locator_spec
    (fsvNode.dir true ['d'] 0 (.cons (.file ['a'] 0 none) .nil)
      (some ⟨2, 2, 0, 0⟩)) 0 0).2
    [fsvNode.dir true ['d'] 0 (.cons (.file ['a'] 0 none) .nil)
      (some ⟨2, 2, 0, 0⟩)] (by decide)

/-- Claim C5's empty-result clause is false: after laying out a
zero-size root in a `2 × 2` window, the cell `(0, 0)` is unallocated
(no child is drawn), yet `get_path` returns the chain `[root]` — the
root's own cached window contains the point — rather than an empty
result. -/
theorem get_path_unallocated_not_empty :
    fsvNode.calculate_content false
      (.dir true ['d'] 0 (.cons (.file ['a'] 0 none) .nil) none) ⟨2, 2, 0, 0⟩ =
      some (.dir true ['d'] 0 (.cons (.file ['a'] 0 none) .nil)
        (some ⟨2, 2, 0, 0⟩)) ∧
    fsvNode.get_path
      (.dir true ['d'] 0 (.cons (.file ['a'] 0 none) .nil)
        (some ⟨2, 2, 0, 0⟩)) 0 0 =
      some [(.dir true ['d'] 0 (.cons (.file ['a'] 0 none) .nil)
        (some ⟨2, 2, 0, 0⟩))] ∧
    some [(fsvNode.dir true ['d'] 0 (.cons (.file ['a'] 0 none) .nil)
        (some ⟨2, 2, 0, 0⟩))] ≠ (none : Option (List fsvNode)) := by
  refine ⟨by decide, by decide, by simp⟩

/-- Python whitespace for `str.strip()` / `int()` (ASCII range). -/
def isPySpace (c : Char) : Bool :=
  c = ' ' || c = '\t' || c = '\n' || c = '\r' || c = '\x0b' || c = '\x0c'

/-- `str.strip()`. -/
def pyStrip (l : List Char) : List Char :=
  ((l.dropWhile isPySpace).reverse.dropWhile isPySpace).reverse

/-- Digit run of a Python integer literal after its first digit: digits,
with single underscores allowed between digits. -/
def pyDigitsGo : List Char → ℕ → Option ℕ
  | [], acc => some acc
  | '_' :: c :: rest, acc =>
    if c.isDigit then pyDigitsGo rest (acc * 10 + (c.toNat - 48)) else none
  | ['_'], _ => none
  | c :: rest, acc =>
    if c.isDigit then pyDigitsGo rest (acc * 10 + (c.toNat - 48)) else none

/-- A non-empty digit run starting with a digit. -/
def pyDigits (l : List Char) : Option ℕ :=
  match l with
  | [] => none
  | c :: _ => if c.isDigit then pyDigitsGo l 0 else none

/-- Python `int(text)` on ASCII text: optional surrounding whitespace,
optional sign, digits (underscore separators allowed); `none` models
`ValueError`. -/
def pyInt (l : List Char) : Option ℤ :=
  match pyStrip l with
  | '+' :: rest => (pyDigits rest).map (fun n => (n : ℤ))
  | '-' :: rest => (pyDigits rest).map (fun n => -(n : ℤ))
  | rest => (pyDigits rest).map (fun n => (n : ℤ))

/-- `line.find("\t")`: index of the first TAB, `-1` when absent. -/
def pyFindTab (l : List Char) : ℤ :=
  match l.findIdx? (fun c => c = '\t') with
  | some i => (i : ℤ)
  | none => -1

/-- `line[:p]` for `p = line.find("\t")`: up to the TAB, or everything
except the final character when there is no TAB (`line[:-1]`). -/
def sizeSlice (l : List Char) : List Char :=
  if pyFindTab l = -1 then l.dropLast else l.take (pyFindTab l).toNat

/-- `line[p:]` for `p = line.find("\t")`: from the TAB on, or just the
final character when there is no TAB (`line[-1:]`). -/
def pathSlice (l : List Char) : List Char :=
  if pyFindTab l = -1 then l.drop (l.length - 1) else l.drop (pyFindTab l).toNat

/-- `str.split(os.path.sep)` with `os.path.sep = "/"`; `"".split("/")`
is `[""]`. -/
def splitSepGo : List Char → List Char → List (List Char)
  | [], cur => [cur.reverse]
  | '/' :: rest, cur => cur.reverse :: splitSepGo rest []
  | c :: rest, cur => splitSepGo rest (c :: cur)

def splitSep (l : List Char) : List (List Char) := splitSepGo l []

/-- `BLOCKSIZE = 1` (src/filesizeview.py:16, the default/GNU-du branch). -/
def BLOCKSIZE : ℤ := 1

/-- One record of the `du` stream (src/filesizeview.py:430–433):
`size = int(line[:p]) * BLOCKSIZE`, `path = line[p:].strip().split(sep)`.
`none` models the uncaught `ValueError` from `int`. -/
def parse_record (line : List Char) : Option (ℤ × List (List Char)) := do
  let n ← pyInt (sizeSlice line)
  pure (n * BLOCKSIZE, splitSep (pyStrip (pathSlice line)))

/-- A directory still open on the builder stack (`current_dirs` holds
only `fsvDirectory`/`fsvParentDirectory` objects). -/
structure OpenDir where
  isRoot : Bool
  name : List Char
  size : ℤ
  files : fsvList
deriving DecidableEq, Repr

def fsvList.push : fsvList → fsvNode → fsvList
  | .nil, f => .cons f .nil
  | .cons h t, f => .cons h (t.push f)

/-- `fsvDirectory.add_file` (src/filesizeview.py:125–127): append the
child and accumulate its size. -/
def OpenDir.add_file (d : OpenDir) (f : fsvNode) : OpenDir :=
  { d with files := d.files.push f, size := d.size + f.size }

/-- Stable descending insertion: the new (earlier-scanned) element goes
in front of equal-sized ones that were scanned later. Models the
observable effect of Python's stable `list.sort(key=..., reverse=True)`. -/
def insertDesc (x : fsvNode) : List fsvNode → List fsvNode
  | [] => [x]
  | y :: t => if x.size < y.size then y :: insertDesc x t else x :: y :: t

/-- `self._files.sort(key=lambda f: f.size(), reverse=True)`
(src/filesizeview.py:133–134): stable sort by descending size. -/
def pySortDesc (l : List fsvNode) : List fsvNode := l.foldr insertDesc []

/-- `fsvDirectory.setup` (src/filesizeview.py:133–134). -/
def OpenDir.setup (d : OpenDir) : OpenDir :=
  { d with files := fsvList.ofList (pySortDesc d.files.toList) }

/-- The closed directory as a tree node (windows are never set by the
builder). -/
def OpenDir.toNode (d : OpenDir) : fsvNode :=
  .dir d.isRoot d.name d.size d.files none

/-- The close loop `for j in range(len(current_dirs)-2, i-2, -1):
current_dirs[j].add_file(current_dirs[j+1]); current_dirs[j+1].setup()`
(src/filesizeview.py:437–439, 443–445) folded from the top of the
stack: each popped directory is attached (sorted) into the one below. -/
def closeFold : OpenDir → List OpenDir → OpenDir
  | p, [] => p
  | p, c :: rest => p.add_file ((closeFold c rest).setup).toNode

/-- Close every stack entry above depth `i` and truncate
(`current_dirs = current_dirs[:i]`). For `i = 0` Python's loop indexes
the stack with `-1`, aliasing the list it mutates (a reference cycle);
that lies outside this value model and yields `none`; it is unreachable
when every record path starts with the `.` component (the scan root),
as `du` output does. -/
def closeTo (cd : List OpenDir) (i : ℕ) : Option (List OpenDir) :=
  if i = 0 then none
  else
    match cd.drop (i - 1) with
    | [] => some cd
    | p :: popped => some (cd.take (i - 1) ++ [closeFold p popped])

/-- What the `for i in range(max(len_path, len(last_path)))` loop
(src/filesizeview.py:435–450) decides for one record: close at the
first index where the new path ends (`i >= len_path`), start a new file
at the first divergence (`i >= len(last_path) or last_path[i] != path[i]`),
or fall through (identical paths). -/
inductive StepAct where
  | close (i : ℕ)
  | newfile (i : ℕ)
  | keep
deriving DecidableEq, Repr

def stepActionGo : List (List Char) → List (List Char) → ℕ → StepAct
  | _ :: _, [], i => .close i
  | [], [], _ => .keep
  | [], _ :: _, i => .newfile i
  | l :: ls, p :: ps, i =>
    if p ≠ l then .newfile i else stepActionGo ls ps (i + 1)

/-- `current_dirs[-1].add_file(...)`: update the top of the stack;
`none` models the `IndexError` on an empty stack. -/
def updateLast (f : OpenDir → OpenDir) : List OpenDir → Option (List OpenDir)
  | [] => none
  | [d] => some [f d]
  | d :: rest => (updateLast f rest).map (fun r => d :: r)

/-- The body of `create_tree`'s per-record loop
(src/filesizeview.py:435–451): close/divergence handling, pushing the
new intermediate directories `fsvDirectory(path[j], 0)` and attaching
the record's `fsvFile(path[-1], size)`. -/
def treeStep (cd : List OpenDir) (last_path : List (List Char))
    (sz : ℤ) (path : List (List Char)) : Option (List OpenDir) :=
  match stepActionGo last_path path 0 with
  | .keep => some cd
  | .close i => closeTo cd i
  | .newfile i => do
    let cd1 ← closeTo cd i
    let cd2 := cd1 ++ ((path.drop i).dropLast).map
      (fun nm => OpenDir.mk false nm 0 .nil)
    match path.getLast? with
    | none => none
    | some fname => updateLast (fun d => d.add_file (.file fname sz none)) cd2

/-- `fsvViewer.create_tree` (src/filesizeview.py:426–453): fold the
record stream over the directory stack, starting from
`[fsvParentDirectory(directory, 0)]` and `last_path = ["."]`, and
finish with `current_dirs[0].setup()`. -/
def create_tree (directory : List Char) (lines : List (List Char)) :
    Option fsvNode := do
  let st ← lines.foldlM
    (fun (st : List OpenDir × List (List Char)) line => do
      let r ← parse_record line
      let cd' ← treeStep st.1 st.2 r.1 r.2
      pure (cd', r.2))
    ([OpenDir.mk true directory 0 .nil], [['.']])
  match st.1 with
  | [] => none
  | root :: _ => some ((root.setup).toNode)

/-- Sum of the sizes in a child list. -/
def fsvList.sumSizes : fsvList → ℤ
  | .nil => 0
  | .cons f fs => f.size + fsvList.sumSizes fs

/-- `sizes` is non-increasing. -/
def sizesSortedDesc : List ℤ → Bool
  | [] => true
  | [_] => true
  | a :: b :: t => (decide (b ≤ a)) && sizesSortedDesc (b :: t)

mutual
/-- Invariant (a): every directory's size is the sum of its children's
sizes, recursively. -/
def fsvNode.sizeOK : fsvNode → Bool
  | .file _ _ _ => true
  | .dir _ _ s files _ => (s == fsvList.sumSizes files) && fsvList.allSizeOK files

def fsvList.allSizeOK : fsvList → Bool
  | .nil => true
  | .cons f fs => f.sizeOK && fsvList.allSizeOK fs
end

mutual
/-- Invariant (b): every directory's children are sorted by
non-increasing size, recursively. -/
def fsvNode.sortedOK : fsvNode → Bool
  | .file _ _ _ => true
  | .dir _ _ _ files _ =>
    sizesSortedDesc (files.toList.map fsvNode.size) && fsvList.allSortedOK files

def fsvList.allSortedOK : fsvList → Bool
  | .nil => true
  | .cons f fs => f.sortedOK && fsvList.allSortedOK fs
end

mutual
/-- No node of the tree has a cached window. -/
def fsvNode.windowNone : fsvNode → Bool
  | .file _ _ w => w.isNone
  | .dir _ _ _ files w => w.isNone && fsvList.allWindowsNone files

def fsvList.allWindowsNone : fsvList → Bool
  | .nil => true
  | .cons f fs => f.windowNone && fsvList.allWindowsNone fs
end

theorem toList_ofList : ∀ l : List fsvNode, (fsvList.ofList l).toList = l := by
  intro l
  induction l with
  | nil => rfl
  | cons h t ih => simp [fsvList.ofList, fsvList.toList, ih]

theorem toList_push (fs : fsvList) (f : fsvNode) :
    (fs.push f).toList = fs.toList ++ [f] := by
  match fs with
  | .nil => rfl
  | .cons h t => simp [fsvList.push, fsvList.toList, toList_push t f]

theorem sumSizes_eq (fs : fsvList) :
    fsvList.sumSizes fs = (fs.toList.map fsvNode.size).sum := by
  match fs with
  | .nil => rfl
  | .cons f t => simp [fsvList.sumSizes, fsvList.toList, sumSizes_eq t]

theorem allSizeOK_iff (fs : fsvList) :
    fsvList.allSizeOK fs = true ↔ ∀ f ∈ fs.toList, f.sizeOK = true := by
  match fs with
  | .nil => simp [fsvList.allSizeOK, fsvList.toList]
  | .cons f t => simp [fsvList.allSizeOK, fsvList.toList, allSizeOK_iff t]

theorem allSortedOK_iff (fs : fsvList) :
    fsvList.allSortedOK fs = true ↔ ∀ f ∈ fs.toList, f.sortedOK = true := by
  match fs with
  | .nil => simp [fsvList.allSortedOK, fsvList.toList]
  | .cons f t => simp [fsvList.allSortedOK, fsvList.toList, allSortedOK_iff t]

theorem allWindowsNone_iff (fs : fsvList) :
    fsvList.allWindowsNone fs = true ↔ ∀ f ∈ fs.toList, f.windowNone = true := by
  match fs with
  | .nil => simp [fsvList.allWindowsNone, fsvList.toList]
  | .cons f t => simp [fsvList.allWindowsNone, fsvList.toList, allWindowsNone_iff t]

theorem insertDesc_perm (x : fsvNode) :
    ∀ l : List fsvNode, (insertDesc x l).Perm (x :: l) := by
  intro l
  induction l with
  | nil => simp [insertDesc]
  | cons y t ih =>
    rw [insertDesc]
    by_cases h : x.size < y.size
    · rw [if_pos h]
      exact (ih.cons y).trans (List.Perm.swap x y t)
    · rw [if_neg h]

theorem pySortDesc_perm : ∀ l : List fsvNode, (pySortDesc l).Perm l := by
  intro l
  induction l with
  | nil => simp [pySortDesc]
  | cons a t ih =>
    show (insertDesc a (pySortDesc t)).Perm (a :: t)
    exact (insertDesc_perm a (pySortDesc t)).trans (ih.cons a)

theorem sizesSortedDesc_cons (a : ℤ) (l : List ℤ) :
    sizesSortedDesc (a :: l) = true ↔
    (∀ c, l.head? = some c → c ≤ a) ∧ sizesSortedDesc l = true := by
  cases l with
  | nil => simp [sizesSortedDesc]
  | cons b t =>
    rw [sizesSortedDesc]
    simp only [Bool.and_eq_true, decide_eq_true_eq, List.head?_cons]
    constructor
    · rintro ⟨h1, h2⟩
      exact ⟨fun c hc => (Option.some_inj.mp hc) ▸ h1, h2⟩
    · rintro ⟨h1, h2⟩
      exact ⟨h1 b rfl, h2⟩

theorem insertDesc_sorted (x : fsvNode) :
    ∀ l : List fsvNode, sizesSortedDesc (l.map fsvNode.size) = true →
    sizesSortedDesc ((insertDesc x l).map fsvNode.size) = true ∧
    (∀ b : ℤ, (∀ c, (l.map fsvNode.size).head? = some c → c ≤ b) → x.size ≤ b →
      ∀ c, ((insertDesc x l).map fsvNode.size).head? = some c → c ≤ b) := by
  intro l
  induction l with
  | nil =>
    intro _
    constructor
    · simp [insertDesc, sizesSortedDesc]
    · intro b _ hxb c hc
      simp [insertDesc] at hc
      omega
  | cons y t ih =>
    intro hsort
    rw [List.map_cons] at hsort
    rcases (sizesSortedDesc_cons _ _).mp hsort with ⟨hhead, htail⟩
    rcases ih htail with ⟨ih1, ih2⟩
    by_cases h : x.size < y.size
    · have hins : insertDesc x (y :: t) = y :: insertDesc x t := by
        rw [insertDesc, if_pos h]
      constructor
      · rw [hins, List.map_cons]
        refine (sizesSortedDesc_cons _ _).mpr ⟨?_, ih1⟩
        exact ih2 y.size hhead (le_of_lt h)
      · intro b hb hxb c hc
        rw [hins] at hc
        simp only [List.map_cons, List.head?_cons, Option.some_inj] at hc
        have := hb y.size (by simp)
        omega
    · have hins : insertDesc x (y :: t) = x :: y :: t := by
        rw [insertDesc, if_neg h]
      constructor
      · rw [hins, List.map_cons]
        refine (sizesSortedDesc_cons _ _).mpr ⟨?_, hsort⟩
        intro c hc
        simp only [List.map_cons, List.head?_cons, Option.some_inj] at hc
        omega
      · intro b _ hxb c hc
        rw [hins] at hc
        simp only [List.map_cons, List.head?_cons, Option.some_inj] at hc
        omega

theorem pySortDesc_sorted : ∀ l : List fsvNode,
    sizesSortedDesc ((pySortDesc l).map fsvNode.size) = true := by
  intro l
  induction l with
  | nil => simp [pySortDesc, sizesSortedDesc]
  | cons a t ih =>
    exact (insertDesc_sorted a (pySortDesc t) ih).1

theorem insertDesc_filter (x : fsvNode) (s : ℤ) :
    ∀ l : List fsvNode,
    (insertDesc x l).filter (fun f => f.size == s) =
      if x.size = s then x :: l.filter (fun f => f.size == s)
      else l.filter (fun f => f.size == s) := by
  intro l
  induction l with
  | nil =>
    by_cases hx : x.size = s
    · simp [insertDesc, List.filter_cons, beq_iff_eq, hx]
    · simp [insertDesc, List.filter_cons, beq_iff_eq, hx]
  | cons y t ih =>
    rw [insertDesc]
    by_cases h : x.size < y.size
    · rw [if_pos h]
      by_cases hy : y.size = s
      · by_cases hx : x.size = s
        · omega
        · simp only [if_neg hx] at ih
          simp [List.filter_cons, beq_iff_eq, hy, hx, ih]
      · simp [List.filter_cons, beq_iff_eq, hy, ih]
    · rw [if_neg h]
      by_cases hx : x.size = s
      · simp [List.filter_cons, beq_iff_eq, hx]
      · simp [List.filter_cons, beq_iff_eq, hx]

theorem pySortDesc_filter (s : ℤ) : ∀ l : List fsvNode,
    (pySortDesc l).filter (fun f => f.size == s) =
      l.filter (fun f => f.size == s) := by
  intro l
  induction l with
  | nil => rfl
  | cons a t ih =>
    show (insertDesc a (pySortDesc t)).filter _ = _
    rw [insertDesc_filter]
    by_cases ha : a.size = s
    · rw [if_pos ha, ih, List.filter_cons, if_pos (by simpa using ha)]
    · rw [if_neg ha, ih, List.filter_cons, if_neg (by simpa using ha)]

/-- A fully built subtree: sizes sum correctly, children are sorted, no
window is cached. -/
def goodNode (t : fsvNode) : Prop :=
  t.sizeOK = true ∧ t.sortedOK = true ∧ t.windowNone = true

/-- A directory still open on the stack: its size already equals the
sum of its attached children, and every attached child is a fully built
subtree (the open directory's own child order is not yet sorted). -/
def goodOpen (d : OpenDir) : Prop :=
  d.size = fsvList.sumSizes d.files ∧ ∀ f ∈ d.files.toList, goodNode f

theorem sumSizes_push (fs : fsvList) (f : fsvNode) :
    fsvList.sumSizes (fs.push f) = fsvList.sumSizes fs + f.size := by
  rw [sumSizes_eq, sumSizes_eq, toList_push]
  simp

theorem goodOpen_add_file {d : OpenDir} {f : fsvNode}
    (hd : goodOpen d) (hf : goodNode f) : goodOpen (d.add_file f) := by
  obtain ⟨hsz, hmem⟩ := hd
  constructor
  · show d.size + f.size = fsvList.sumSizes (d.files.push f)
    rw [sumSizes_push, hsz]
  · show ∀ g ∈ (d.files.push f).toList, goodNode g
    rw [toList_push]
    intro g hg
    rcases List.mem_append.mp hg with h | h
    · exact hmem g h
    · rcases List.mem_singleton.mp h with rfl
      exact hf

theorem goodNode_setup_toNode {d : OpenDir} (hd : goodOpen d) :
    goodNode ((d.setup).toNode) := by
  obtain ⟨hsz, hmem⟩ := hd
  have hperm : (pySortDesc d.files.toList).Perm d.files.toList :=
    pySortDesc_perm d.files.toList
  have hmem' : ∀ f ∈ (OpenDir.setup d).files.toList, goodNode f := by
    intro f hf
    rw [OpenDir.setup] at hf
    simp only [toList_ofList] at hf
    exact hmem f (hperm.mem_iff.mp hf)
  have hsum' : fsvList.sumSizes (OpenDir.setup d).files = fsvList.sumSizes d.files := by
    rw [sumSizes_eq, sumSizes_eq, OpenDir.setup]
    simp only [toList_ofList]
    exact List.Perm.sum_eq (hperm.map fsvNode.size)
  refine ⟨?_, ?_, ?_⟩
  · show ((d.setup).toNode).sizeOK = true
    rw [OpenDir.toNode, fsvNode.sizeOK]
    rw [Bool.and_eq_true]
    refine ⟨?_, ?_⟩
    · simp only [OpenDir.setup] at hsum' ⊢
      rw [beq_iff_eq, hsum']
      exact hsz
    · rw [allSizeOK_iff]
      intro f hf
      exact (hmem' f (by simpa [OpenDir.setup] using hf)).1
  · show ((d.setup).toNode).sortedOK = true
    rw [OpenDir.toNode, fsvNode.sortedOK]
    rw [Bool.and_eq_true]
    refine ⟨?_, ?_⟩
    · show sizesSortedDesc (((fsvList.ofList (pySortDesc d.files.toList)).toList).map
        fsvNode.size) = true
      rw [toList_ofList]
      exact pySortDesc_sorted d.files.toList
    · rw [allSortedOK_iff]
      intro f hf
      exact (hmem' f (by simpa [OpenDir.setup] using hf)).2.1
  · show ((d.setup).toNode).windowNone = true
    rw [OpenDir.toNode, fsvNode.windowNone]
    rw [Bool.and_eq_true]
    refine ⟨rfl, ?_⟩
    rw [allWindowsNone_iff]
    intro f hf
    exact (hmem' f (by simpa [OpenDir.setup] using hf)).2.2

theorem goodOpen_closeFold {p : OpenDir} :
    ∀ {popped : List OpenDir}, goodOpen p → (∀ c ∈ popped, goodOpen c) →
    goodOpen (closeFold p popped) := by
  intro popped
  induction popped generalizing p with
  | nil => intro hp _; exact hp
  | cons c rest ih =>
    intro hp hall
    show goodOpen (p.add_file ((closeFold c rest).setup).toNode)
    refine goodOpen_add_file hp (goodNode_setup_toNode ?_)
    exact ih (hall c (List.mem_cons_self c rest))
      (fun d hd => hall d (List.mem_cons_of_mem c hd))

theorem closeTo_good {cd cd' : List OpenDir} {i : ℕ}
    (hall : ∀ d ∈ cd, goodOpen d) (h : closeTo cd i = some cd') :
    ∀ d ∈ cd', goodOpen d := by
  rw [closeTo] at h
  split at h
  · exact absurd h (by simp)
  · split at h
    next => 
      have : cd = cd' := Option.some_inj.mp h
      rw [← this]
      exact hall
    next p popped hdrop =>
      have : cd.take (i - 1) ++ [closeFold p popped] = cd' := Option.some_inj.mp h
      rw [← this]
      intro d hd
      rcases List.mem_append.mp hd with hmem | hmem
      · exact hall d (List.take_subset _ _ hmem)
      · rcases List.mem_singleton.mp hmem with rfl
        have hp : p ∈ cd := List.drop_subset _ _ (hdrop ▸ List.mem_cons_self p popped)
        have hpop : ∀ c ∈ popped, goodOpen c := by
          intro c hc
          exact hall c (List.drop_subset _ _ (hdrop ▸ List.mem_cons_of_mem p hc))
        exact goodOpen_closeFold (hall p hp) hpop

theorem updateLast_good {P : OpenDir → Prop} {f : OpenDir → OpenDir}
    (hf : ∀ d, P d → P (f d)) :
    ∀ {cd cd' : List OpenDir}, (∀ d ∈ cd, P d) → updateLast f cd = some cd' →
    ∀ d ∈ cd', P d := by
  intro cd
  induction cd with
  | nil => intro cd' _ h; rw [updateLast] at h; exact absurd h (by simp)
  | cons d rest ih =>
    intro cd' hall h
    cases rest with
    | nil =>
      rw [updateLast] at h
      have : [f d] = cd' := Option.some_inj.mp h
      rw [← this]
      intro e he
      rcases List.mem_singleton.mp he with rfl
      exact hf d (hall d (List.mem_cons_self d []))
    | cons d2 rest2 =>
      rw [show updateLast f (d :: d2 :: rest2) =
        (updateLast f (d2 :: rest2)).map (fun r => d :: r) from rfl] at h
      rcases Option.map_eq_some'.mp h with ⟨r, hr, hrr⟩
      rw [← hrr]
      intro e he
      rcases List.mem_cons.mp he with rfl | he
      · exact hall e (List.mem_cons_self e _)
      · exact ih (fun d' hd' => hall d' (List.mem_cons_of_mem d hd')) hr e he

theorem treeStep_good {cd cd' : List OpenDir} {last path : List (List Char)} {sz : ℤ}
    (hall : ∀ d ∈ cd, goodOpen d) (h : treeStep cd last sz path = some cd') :
    ∀ d ∈ cd', goodOpen d := by
  rw [treeStep] at h
  split at h
  · -- keep
    have : cd = cd' := Option.some_inj.mp h
    rw [← this]; exact hall
  · -- close
    exact closeTo_good hall h
  next i _ =>
    rcases Option.bind_eq_some.mp h with ⟨cd1, hcd1, h2⟩
    have hgood1 : ∀ d ∈ cd1, goodOpen d := closeTo_good hall hcd1
    have hgood2 : ∀ d ∈ cd1 ++ ((path.drop i).dropLast).map
        (fun nm => OpenDir.mk false nm 0 .nil), goodOpen d := by
      intro d hd
      rcases List.mem_append.mp hd with hm | hm
      · exact hgood1 d hm
      · rcases List.mem_map.mp hm with ⟨nm, _, rfl⟩
        exact ⟨rfl, by intro f hf; simp [fsvList.toList] at hf⟩
    split at h2
    · exact absurd h2 (by simp)
    · refine updateLast_good ?_ hgood2 h2
      intro d hd
      exact goodOpen_add_file hd ⟨rfl, rfl, rfl⟩

/-- Every hierarchy the builder returns is fully built: directory sizes
sum their children, children are sorted non-increasingly, and no node
carries a cached window. -/
theorem create_tree_invariants {directory : List Char} {lines : List (List Char)}
    {t : fsvNode} (h : create_tree directory lines = some t) : goodNode t := by
  rw [create_tree] at h
  rcases Option.bind_eq_some.mp h with ⟨st, hst, hfin⟩
  have hgood : ∀ d ∈ st.1, goodOpen d := by
    refine foldlM_option_inv _ (fun st => ∀ d ∈ st.1, goodOpen d) lines
      ([OpenDir.mk true directory 0 .nil], [['.']]) st hst ?_ ?_
    · intro d hd
      rcases List.mem_singleton.mp hd with rfl
      exact ⟨rfl, by intro f hf; simp [fsvList.toList] at hf⟩
    · intro s a s' _ hs hstep
      rcases Option.bind_eq_some.mp hstep with ⟨r, _, h2⟩
      rcases Option.bind_eq_some.mp h2 with ⟨cd', hcd', h3⟩
      have : (cd', r.2) = s' := Option.some_inj.mp h3
      rw [← this]
      exact treeStep_good hs hcd'
  revert hfin
  split
  · intro hfin; exact absurd hfin (by simp)
  next root rest heq =>
    intro hfin
    have : (root.setup).toNode = t := Option.some_inj.mp hfin
    rw [← this]
    exact goodNode_setup_toNode (hgood root (heq ▸ List.mem_cons_self root rest))

/-- C7: after a built hierarchy is finalized, every directory's children
sequence is sorted non-increasingly by size (`sortedOK` checks this on
every directory of the tree), and the sort applied at finalization
(`setup`, which orders a directory's insertion-order child list) is
stable: children of equal size keep their original insertion order. -/
theorem create_tree_children_sorted :
    (∀ (directory : List Char) (lines : List (List Char)) (t : fsvNode),
      create_tree directory lines = some t → t.sortedOK = true) ∧
    (∀ d : OpenDir,
      sizesSortedDesc ((((d.setup).files).toList).map fsvNode.size) = true ∧
      ∀ s : ℤ, (((d.setup).files).toList).filter (fun f => f.size == s) =
        ((d.files).toList).filter (fun f => f.size == s)) := by
  constructor
  · intro directory lines t h
    exact (create_tree_invariants h).2.1
  · intro d
    constructor
    · show sizesSortedDesc (((fsvList.ofList (pySortDesc d.files.toList)).toList).map
        fsvNode.size) = true
      rw [toList_ofList]
      exact pySortDesc_sorted d.files.toList
    · intro s
      show ((fsvList.ofList (pySortDesc d.files.toList)).toList).filter _ = _
      rw [toList_ofList]
      exact pySortDesc_filter s d.files.toList

theorem create_tree_children_sorted_witness :
    (fsvNode.dir true ("ROOT".toList) 10
      (.cons (.dir false (['a']) 8
          (.cons (.file (['f','1']) 5 none) (.cons (.file (['f','2']) 3 none) .nil)) none)
        (.cons (.file (['b']) 2 none) .nil)) none).sortedOK = true :=
  create_tree_children_sorted.1 ("ROOT".toList)
    ["5\t./a/f1\n".toList, "3\t./a/f2\n".toList, "8\t./a\n".toList,
     "2\t./b\n".toList, "10\t.\n".toList] _ (by decide)

/-- C8: for every directory node of a built hierarchy, its size equals
the sum of its children's sizes (`sizeOK` checks this on every
directory of the tree); the size is accumulated incrementally as each
child is attached (`add_file` adds the child's size), and the size
field parsed from the directory's own input record is discarded: a
record that closes directories (or repeats the previous path) produces
the same stack for every parsed size value. -/
theorem create_tree_size_sum :
    (∀ (directory : List Char) (lines : List (List Char)) (t : fsvNode),
      create_tree directory lines = some t → t.sizeOK = true) ∧
    (∀ (d : OpenDir) (f : fsvNode), (d.add_file f).size = d.size + f.size) ∧
    (∀ (cd : List OpenDir) (last path : List (List Char)) (sz sz' : ℤ),
      (∀ i, stepActionGo last path 0 = .close i ∨ stepActionGo last path 0 = .keep) →
      treeStep cd last sz path = treeStep cd last sz' path) := by
  refine ⟨?_, ?_, ?_⟩
  · intro directory lines t h
    exact (create_tree_invariants h).1
  · intro d f
    rfl
  · intro cd last path sz sz' h
    rcases h 0 with h | h <;> rw [treeStep, treeStep, h]

theorem create_tree_size_sum_witness :
    (fsvNode.dir true ("ROOT".toList) 10
      (.cons (.dir false (['a']) 8
          (.cons (.file (['f','1']) 5 none) (.cons (.file (['f','2']) 3 none) .nil)) none)
        (.cons (.file (['b']) 2 none) .nil)) none).sizeOK = true :=
  create_tree_size_sum.1 ("ROOT".toList)
    ["5\t./a/f1\n".toList, "3\t./a/f2\n".toList, "8\t./a\n".toList,
     "2\t./b\n".toList, "10\t.\n".toList] _ (by decide)

theorem calcChildren_untouched (df : Bool) (fs : fsvList) :
    ∀ (asg : List (Option Geom)) (win : Geom) (fs' : fsvList),
      fsvList.calcChildren df fs asg win = some fs' →
      fs'.toList.length = fs.toList.length ∧
      ∀ (j : ℕ) (f : fsvNode), fs.toList[j]? = some f → asg[j]? = some none →
        fs'.toList[j]? = some f := by
  match fs with
  | .nil =>
    intro asg win fs' h
    match asg with
    | [] =>
      have : fsvList.nil = fs' := Option.some_inj.mp h
      rw [← this]
      refine ⟨rfl, ?_⟩
      intro j f hj _
      simp [fsvList.toList] at hj
    | _ :: _ => exact absurd h (by simp [fsvList.calcChildren])
  | .cons f0 fs0 =>
    intro asg win fs' h
    match asg with
    | [] => exact absurd h (by simp [fsvList.calcChildren])
    | none :: as_ =>
      rw [show fsvList.calcChildren df (.cons f0 fs0) (none :: as_) win =
        (fsvList.calcChildren df fs0 as_ win).bind
          (fun rest => some (.cons f0 rest)) from rfl] at h
      rcases Option.bind_eq_some.mp h with ⟨rest, hrest, h2⟩
      have : fsvList.cons f0 rest = fs' := Option.some_inj.mp h2
      rw [← this]
      obtain ⟨hlen, hkeep⟩ := calcChildren_untouched df fs0 as_ win rest hrest
      refine ⟨?_, ?_⟩
      · show rest.toList.length + 1 = fs0.toList.length + 1
        rw [hlen]
      · intro j f hj ha
        match j with
        | 0 =>
          show ((fsvList.cons f0 rest).toList)[0]? = some f
          simpa [fsvList.toList] using hj
        | j + 1 =>
          show (f0 :: rest.toList)[j + 1]? = some f
          simp only [List.getElem?_cons_succ]
          exact hkeep j f (by simpa [fsvList.toList] using hj)
            (by simpa using ha)
    | some rel :: as_ =>
      rw [show fsvList.calcChildren df (.cons f0 fs0) (some rel :: as_) win =
        (fsvNode.calculate_content df f0
          ⟨rel.nlines, rel.ncols, win.begy + rel.begy, win.begx + rel.begx⟩).bind
          (fun child => (fsvList.calcChildren df fs0 as_ win).bind
            (fun rest => some (.cons child rest))) from rfl] at h
      rcases Option.bind_eq_some.mp h with ⟨child, _, h2⟩
      rcases Option.bind_eq_some.mp h2 with ⟨rest, hrest, h3⟩
      have : fsvList.cons child rest = fs' := Option.some_inj.mp h3
      rw [← this]
      obtain ⟨hlen, hkeep⟩ := calcChildren_untouched df fs0 as_ win rest hrest
      refine ⟨?_, ?_⟩
      · show rest.toList.length + 1 = fs0.toList.length + 1
        rw [hlen]
      · intro j f hj ha
        match j with
        | 0 => simp at ha
        | j + 1 =>
          show (child :: rest.toList)[j + 1]? = some f
          simp only [List.getElem?_cons_succ]
          exact hkeep j f (by simpa [fsvList.toList] using hj)
            (by simpa using ha)

/-- C6 (amended): a node's cached geometry is `None` until the first
layout pass — every tree the builder returns satisfies `windowNone` —
and in a layout pass over a directory each child that the pass does not
assign a rectangle (`asg[j] = none`) is left completely untouched:
it keeps whatever cached geometry it had before the pass (stale
geometry included) rather than being reset to `None`. -/
theorem geometry_cache_stale :
    (∀ (directory : List Char) (lines : List (List Char)) (t : fsvNode),
      create_tree directory lines = some t → t.windowNone = true) ∧
    (∀ (df r : Bool) (name : List Char) (s : ℤ) (files : fsvList)
      (w : Option Geom) (win : Geom) (t' : fsvNode),
      fsvNode.calculate_content df (.dir r name s files w) win = some t' →
      ∃ (asg : List (Option Geom)) (files' : fsvList),
        layoutGeoms (files.toList.map fsvNode.size) s win.nlines win.ncols r df =
          some asg ∧
        t' = .dir r name s files' (some win) ∧
        files'.toList.length = files.toList.length ∧
        ∀ (j : ℕ) (f : fsvNode), files.toList[j]? = some f → asg[j]? = some none →
          files'.toList[j]? = some f) := by
  constructor
  · intro directory lines t h
    exact (create_tree_invariants h).2.2
  · intro df r name s files w win t' h
    rw [show fsvNode.calculate_content df (.dir r name s files w) win =
      (layoutGeoms (files.toList.map fsvNode.size) s win.nlines win.ncols r df).bind
        (fun asg => (fsvList.calcChildren df files asg win).bind
          (fun files' => some (.dir r name s files' (some win)))) from rfl] at h
    rcases Option.bind_eq_some.mp h with ⟨asg, hasg, h2⟩
    rcases Option.bind_eq_some.mp h2 with ⟨files', hf, h3⟩
    obtain ⟨hlen, hkeep⟩ := calcChildren_untouched df files asg win files' hf
    exact ⟨asg, files', hasg, (Option.some_inj.mp h3).symm, hlen, hkeep⟩

theorem geometry_cache_stale_witness :
    (fsvNode.dir true (['R']) 7
      (.cons (.file (['x']) 7 none) .nil) none).windowNone = true :=
  geometry_cache_stale.1 (['R']) ["7\t./x\n".toList, "7\t.\n".toList] _ (by decide)

/-- The claim's clearing clause is false: after a second layout pass in
a narrower window, child `b` is not drawn (the pass assigns it `none`),
yet it keeps the geometry cached by the first pass — columns 3..3, a
region outside the new 2-column parent window — instead of `None`. -/
theorem calculate_content_stale_geometry :
    (fsvNode.calculate_content false
        (.dir true (['d']) 4 (.cons (.file (['a']) 3 none)
          (.cons (.file (['b']) 1 none) .nil)) none) ⟨1,4,0,0⟩).bind
      (fun t1 => fsvNode.calculate_content false t1 ⟨1,2,0,0⟩) =
      some (.dir true (['d']) 4
        (.cons (.file (['a']) 3 (some ⟨1,2,0,0⟩))
          (.cons (.file (['b']) 1 (some ⟨1,1,0,3⟩)) .nil))
        (some ⟨1,2,0,0⟩)) ∧
    layoutGeoms [3,1] 4 1 2 true false = some [some ⟨1,2,0,0⟩, none] := by
  decide

theorem foldlM_absorb {σ α : Type} (f : σ → α → Option σ) (line : α)
    (hline : ∀ s, f s line = none) :
    ∀ (pre : List α) (post : List α) (init : σ),
      (pre ++ line :: post).foldlM f init = none := by
  intro pre
  induction pre with
  | nil =>
    intro post init
    rw [List.nil_append, List.foldlM_cons, hline init]
    rfl
  | cons a rest ih =>
    intro post init
    rw [List.cons_append, List.foldlM_cons]
    cases hfa : f init a with
    | none => rfl
    | some s => exact ih post s

/-- C4 (amended): the builder aborts the whole build — `create_tree`
raises (returns `none`) — as soon as any record's size field fails
integer parsing, and record rejection is exactly `int()` failing on the
size slice (the characters before the first TAB, or the whole line
minus its final character when there is no TAB). A TAB-less record is
not itself an error, and a negative size is accepted. -/
theorem create_tree_abort_on_bad_size :
    (∀ (directory : List Char) (pre post : List (List Char)) (line : List Char),
      parse_record line = none →
      create_tree directory (pre ++ line :: post) = none) ∧
    (∀ line : List Char, parse_record line = none ↔ pyInt (sizeSlice line) = none) := by
  constructor
  · intro directory pre post line hparse
    simp only [create_tree]
    rw [foldlM_absorb]
    · rfl
    · intro s
      show (parse_record line).bind _ = none
      rw [hparse]
      rfl
  · intro line
    show (pyInt (sizeSlice line)).bind _ = none ↔ _
    cases hp : pyInt (sizeSlice line) with
    | none => simp
    | some n => simp

theorem create_tree_abort_on_bad_size_witness :
    create_tree (['R']) ([] ++ ("x\tf".toList) :: []) = none :=
  create_tree_abort_on_bad_size.1 (['R']) [] [] ("x\tf".toList) (by decide)

/-- The claim's TAB and non-negativity clauses are false: a TAB-less
record whose truncated line parses as an integer is accepted silently
("12." is treated as a repeat of path "."), and a record with a
negative size builds a node with that negative size. -/
theorem create_tree_accepts_malformed_records :
    create_tree (['R']) ["12.".toList] = some (.dir true (['R']) 0 .nil none) ∧
    pyFindTab ("12.".toList) = -1 ∧
    create_tree (['R']) ["-5\t./f\n".toList, "-5\t.\n".toList] =
      some (.dir true (['R']) (-5) (.cons (.file (['f']) (-5) none) .nil) none) := by
  decide
